import Mathlib

/-!
Shallow embedding of the PDF-to-record reconciliation core of this
repository (`pdf_title_matcher.py`), together with the parts of its two
library dependencies that the core calls into:

* the heuristic title extractor `extract_title_from_text` with its helpers
  `clean_title_line` and `clean_full_title`;
* the fuzzy scorers `fuzz.ratio`, `fuzz.partial_ratio`,
  `fuzz.token_sort_ratio`, `fuzz.token_set_ratio` and the corpus search
  `process.extractOne` of the fuzzywuzzy library (pure-Python backend:
  the edit-block matcher of difflib's `SequenceMatcher`, no junk
  heuristic since inputs are short);
* the matcher `match_titles_fuzzy` and the catalog augmentation
  `update_excel_file`.

Strings are modelled as Lean `String` over their character lists; text is
assumed ASCII (the corpus is English-language metadata), so Python's
case folding and `\w` coincide with the ASCII definitions used here.
Floating-point ratios `2*M/T` are modelled by exact rational rounding
(Python 3 `round`, half to even); the inputs exercised here do not sit on
representation boundaries.
-/

/-- Python's whitespace class (`str.strip`, `str.split`, regex `\s`),
restricted to ASCII. -/
def isPyWS (c : Char) : Bool :=
  c == ' ' || c == '\t' || c == '\n' || c == '\r' || c == '\x0b' || c == '\x0c'

/-- Python `str.strip()` on a character list. -/
def pyStripChars (l : List Char) : List Char :=
  ((l.dropWhile isPyWS).reverse.dropWhile isPyWS).reverse

/-- Python `str.strip()`. -/
def pyStrip (s : String) : String := ⟨pyStripChars s.data⟩

/-- Python `str.lower()` (ASCII). -/
def lowerStr (s : String) : String := ⟨s.data.map Char.toLower⟩

/-- Python `needle in hay` substring test on character lists. -/
def subList (needle : List Char) : List Char → Bool
  | [] => needle.isEmpty
  | c :: rest => needle.isPrefixOf (c :: rest) || subList needle rest

/-- Python `needle in hay` substring test on strings. -/
def strContainsSub (hay needle : String) : Bool := subList needle.data hay.data

/-- Python `any(x in hay for x in needles)`. -/
def containsAnyTok (hay : String) (needles : List String) : Bool :=
  needles.any (fun n => strContainsSub hay n)

/-- Python `str.isupper()` (ASCII: some cased character, and every cased
character uppercase). -/
def pyIsUpper (s : String) : Bool :=
  s.data.any Char.isAlpha && s.data.all (fun c => !c.isAlpha || c.isUpper)

/-! ## Title extractor (`extract_title_from_text` and helpers) -/

/-- Boilerplate tokens that make the start-of-title scan skip a line
(`extract_title_from_text`, header skip list). -/
def headerSkipTokens : List String :=
  ["www.ausmt.org", "copyright", "journal of automation", "vol.", "no."]

/-- Section labels whose line precedes the title
(`extract_title_from_text`, section indicator list). -/
def sectionTokens : List String :=
  ["editorial", "original article", "trend", "review", "research"]

/-- Tokens that end title territory
(`extract_title_from_text`, collection stop list). -/
def titleEndTokens : List String :=
  ["abstract", "introduction", "keywords", "received:", "doi:"]

/-- Boilerplate tokens that blank a cleaned line (`clean_title_line`). -/
def lineSkipTokens : List String :=
  ["www.", "copyright", "journal", "vol.", "no.", "page"]

/-- Regex `^\d+\s*` removal: a leading digit run and following whitespace. -/
def dropLeadingNum (l : List Char) : List Char :=
  match l with
  | c :: _ => if c.isDigit then (l.dropWhile Char.isDigit).dropWhile isPyWS else l
  | [] => l

/-- Regex `\s*\d+$` removal: a trailing digit run and preceding whitespace. -/
def dropTrailingNum (l : List Char) : List Char :=
  match l.reverse with
  | c :: _ =>
    if c.isDigit then ((l.reverse.dropWhile Char.isDigit).dropWhile isPyWS).reverse
    else l
  | [] => l

/-- Helper for regex `\s+` to a single space: state is whether the previous
kept character was produced from whitespace. -/
def collapseWsGo : Bool → List Char → List Char
  | _, [] => []
  | prevWs, c :: rest =>
    if isPyWS c then
      if prevWs then collapseWsGo true rest else ' ' :: collapseWsGo true rest
    else c :: collapseWsGo false rest

/-- Regex `re.sub(r'\s+', ' ', line)`. -/
def collapseWs (l : List Char) : List Char := collapseWsGo false l

/-- The source's `clean_title_line`: strip leading/trailing digit runs,
collapse whitespace, strip, and blank lines holding boilerplate tokens. -/
def clean_title_line (line : String) : String :=
  if line = "" then ""
  else
    let l1 := dropLeadingNum line.data
    let l2 := dropTrailingNum l1
    let cleaned : String := ⟨pyStripChars (collapseWs l2)⟩
    if containsAnyTok (lowerStr cleaned) lineSkipTokens then "" else cleaned

/-- Case-insensitive removal of the article pattern `art` (given lowercase)
from the front of `l`; the article must be followed by whitespace (`\s+`),
which is removed with it. -/
def stripArticleOne (art : List Char) (l : List Char) : Option (List Char) :=
  match art, l with
  | [], c :: rest => if isPyWS c then some ((c :: rest).dropWhile isPyWS) else none
  | [], [] => none
  | _ :: _, [] => none
  | a :: as, c :: cs => if c.toLower == a then stripArticleOne as cs else none

/-- Regex `^(the|an|a)\s+` removal, `re.IGNORECASE`, ordered alternation. -/
def stripLeadingArticle (l : List Char) : List Char :=
  match stripArticleOne "the".data l with
  | some r => r
  | none =>
    match stripArticleOne "an".data l with
    | some r => r
    | none =>
      match stripArticleOne "a".data l with
      | some r => r
      | none => l

/-- Regex `\s*[,;]\s*$` removal: one trailing comma/semicolon with the
whitespace around it. -/
def dropTrailingPunctComma (l : List Char) : List Char :=
  match l.reverse.dropWhile isPyWS with
  | c :: rest => if c == ',' || c == ';' then (rest.dropWhile isPyWS).reverse else l
  | [] => l

/-- The source's `clean_full_title`: collapse whitespace, strip a leading
article, strip one trailing comma/semicolon, strip. -/
def clean_full_title (title : String) : String :=
  if title = "" then ""
  else
    let t1 := pyStripChars (collapseWs title.data)
    let t2 := stripLeadingArticle t1
    let t3 := dropTrailingPunctComma t2
    ⟨pyStripChars t3⟩

/-- The author/affiliation stop test of the collection loop: a short line
that is all-uppercase, holds `@`, or holds `university` (on the lowered
line). -/
def isAuthorish (c : String) : Bool :=
  decide (c.length < 50) &&
    (pyIsUpper c || c.data.contains '@' || strContainsSub (lowerStr c) "university")

/-- One line ends with sentence punctuation (`str.endswith(('.', '?', '!'))`). -/
def endsWithTitlePunct (s : String) : Bool :=
  match s.data.getLast? with
  | some c => c == '.' || c == '?' || c == '!'
  | none => false

/-- The title-fragment collection loop of `extract_title_from_text` over the
(at most five) candidate lines: skip empty-cleaned lines; stop before a
title-end line; stop before an author-like line; append a punctuation-ended
line and stop. -/
def collectGo : List String → List String
  | [] => []
  | l :: rest =>
    let c := clean_title_line l
    if c = "" then collectGo rest
    else if containsAnyTok (lowerStr c) titleEndTokens then []
    else if isAuthorish c then []
    else if endsWithTitlePunct c then [c]
    else c :: collectGo rest

/-- A line the start-of-title scan skips as a known header. -/
def isHeaderSkip (s : String) : Bool := containsAnyTok (lowerStr s) headerSkipTokens

/-- A line the start-of-title scan reads as a section label. -/
def isSectionLabel (s : String) : Bool := containsAnyTok (lowerStr s) sectionTokens

/-- The start-of-title scan of `extract_title_from_text` over the first 15
enumerated lines: skip headers, a section label points at the next line, an
early substantial line is the title itself, default 0. -/
def findStartGo : List (Nat × String) → Nat
  | [] => 0
  | (i, line) :: rest =>
    if isHeaderSkip line then findStartGo rest
    else if isSectionLabel line then i + 1
    else if decide (20 < line.length) && decide (i < 10) then i
    else findStartGo rest

/-- Python `text.split('\n')` on character lists: split at every newline,
keeping empty pieces (structural recursion, so it evaluates in the
kernel). -/
def splitNlGo (cur : List Char) : List Char → List String
  | [] => [⟨cur.reverse⟩]
  | c :: rest =>
    if c = '\n' then ⟨cur.reverse⟩ :: splitNlGo [] rest
    else splitNlGo (c :: cur) rest

/-- Python `text.split('\n')` followed by per-line strip and dropping empty
lines, as in `extract_title_from_text`. -/
def pyLines (text : String) : List String :=
  ((splitNlGo [] text.data).map pyStrip).filter (fun l => l ≠ "")

/-- Python `' '.join(ws)` on character lists. -/
def joinWordsChars : List (List Char) → List Char
  | [] => []
  | [w] => w
  | w :: ws => w ++ ' ' :: joinWordsChars ws

/-- Python `' '.join(ts)`. -/
def joinWords (ts : List String) : String := ⟨joinWordsChars (ts.map String.data)⟩

/-- Python `max` with a numeric key over a nonempty list `x0 :: xs`: the
first element of maximal key (ties keep the earlier element). -/
def pyMaxBy {β : Type} (key : β → Nat) (x0 : β) (xs : List β) : β :=
  xs.foldl (fun best c => if key best < key c then c else best) x0

/-- Python `max(l, key=len)`: the first line of maximal length. -/
def pyMaxByLen : List String → String
  | [] => ""
  | x :: xs => pyMaxBy (fun s => s.length) x xs

/-- The source's `extract_title_from_text`: find a start line, collect up to
five title fragments, accept their joined cleaned form when its length is in
(10, 300); otherwise fall back to the longest cleaned line of length in
(15, 200) among the first twenty, or return none. -/
def extract_title_from_text (text : String) : Option String :=
  let lines := pyLines text
  if lines = [] then none
  else
    let start := findStartGo (List.enumFrom 0 (lines.take 15))
    let mainResult : Option String :=
      if start < lines.length then
        let tls := collectGo ((lines.drop start).take 5)
        if tls = [] then none
        else
          let full := clean_full_title (joinWords tls)
          if 10 < full.length ∧ full.length < 300 then some full else none
      else none
    match mainResult with
    | some t => some t
    | none =>
      let meaningful := (lines.take 20).filterMap (fun l =>
        let c := clean_title_line l
        if 15 < c.length ∧ c.length < 200 then some c else none)
      match meaningful with
      | [] => none
      | m :: ms => some (clean_full_title (pyMaxByLen (m :: ms)))

/-! ## Fuzzy scorers (fuzzywuzzy `fuzz` module over difflib) -/

/-- fuzzywuzzy `utils.full_process` over ASCII: non-`\w` characters become
spaces, everything is lowered, ends are stripped. -/
def normChar (c : Char) : Char :=
  if c.isAlphanum || c == '_' then c.toLower else ' '

/-- fuzzywuzzy `utils.full_process`. -/
def full_process (s : String) : String := ⟨pyStripChars (s.data.map normChar)⟩

/-- Helper for Python `str.split()`: accumulate the current word (reversed)
and emit words at whitespace runs and at the end. -/
def wsWordsGo (cur : List Char) : List Char → List (List Char)
  | [] => if cur.isEmpty then [] else [cur.reverse]
  | c :: rest =>
    if isPyWS c then
      if cur.isEmpty then wsWordsGo [] rest else cur.reverse :: wsWordsGo [] rest
    else wsWordsGo (c :: cur) rest

/-- Python `str.split()` with no argument: whitespace runs, empties dropped. -/
def pySplitWs (s : String) : List String := (wsWordsGo [] s.data).map (fun w => ⟨w⟩)

/-- Python string `<` (lexicographic on code points). -/
def lexLt : List Char → List Char → Bool
  | [], [] => false
  | [], _ :: _ => true
  | _ :: _, [] => false
  | a :: as, b :: bs => if a < b then true else if b < a then false else lexLt as bs

/-- Stable insertion used by `sortStrings`: equal keys keep their order. -/
def insertSorted (x : String) : List String → List String
  | [] => [x]
  | y :: ys => if lexLt x.data y.data then x :: y :: ys else y :: insertSorted x ys

/-- Python `sorted` on strings (ascending, stable). -/
def sortStrings (l : List String) : List String := l.foldr insertSorted []

/-- Length of the common prefix of two character lists. -/
def commonPrefixLen : List Char → List Char → Nat
  | a :: as, b :: bs => if a == b then commonPrefixLen as bs + 1 else 0
  | _, _ => 0

/-- Length of the common run of `a` and `b` starting at `(i, j)`, clipped to
the windows ending at `ahi` and `bhi`. -/
def matchLenAt (a b : List Char) (ahi bhi i j : Nat) : Nat :=
  commonPrefixLen ((a.take ahi).drop i) ((b.take bhi).drop j)

/-- difflib `SequenceMatcher.find_longest_match` on the windows
`[alo, ahi) × [blo, bhi)` with no junk: the longest common run, earliest in
`a` then earliest in `b` among ties, `(alo, blo, 0)` when none. -/
def findLongestMatch (a b : List Char) (alo ahi blo bhi : Nat) : Nat × Nat × Nat :=
  (List.range' alo (ahi - alo)).foldl (fun best i =>
    (List.range' blo (bhi - blo)).foldl (fun best j =>
      let k := matchLenAt a b ahi bhi i j
      if best.2.2 < k then (i, j, k) else best) best) (alo, blo, 0)

/-- difflib `get_matching_blocks` recursion: the longest match of a window
splits it into the windows before and after it.  The fuel dominates the
total window size, so the top-level call below never exhausts it. -/
def matchingBlocksGo (a b : List Char) :
    Nat → Nat → Nat → Nat → Nat → List (Nat × Nat × Nat)
  | 0, _, _, _, _ => []
  | Nat.succ fuel, alo, ahi, blo, bhi =>
    let m := findLongestMatch a b alo ahi blo bhi
    if m.2.2 = 0 then []
    else
      (if alo < m.1 ∧ blo < m.2.1 then
        matchingBlocksGo a b fuel alo m.1 blo m.2.1
      else []) ++
      m :: (if m.1 + m.2.2 < ahi ∧ m.2.1 + m.2.2 < bhi then
        matchingBlocksGo a b fuel (m.1 + m.2.2) ahi (m.2.1 + m.2.2) bhi
      else [])

/-- difflib `get_matching_blocks` adjacency merge over the sorted blocks. -/
def mergeAdjacent : List (Nat × Nat × Nat) → Nat × Nat × Nat → List (Nat × Nat × Nat)
  | [], acc => if acc.2.2 = 0 then [] else [acc]
  | blk :: rest, acc =>
    if acc.1 + acc.2.2 = blk.1 ∧ acc.2.1 + acc.2.2 = blk.2.1 then
      mergeAdjacent rest (acc.1, acc.2.1, acc.2.2 + blk.2.2)
    else if acc.2.2 = 0 then mergeAdjacent rest blk
    else acc :: mergeAdjacent rest blk

/-- difflib `SequenceMatcher.get_matching_blocks`: the recursive blocks in
sorted order, adjacent blocks merged, and the `(len a, len b, 0)` sentinel. -/
def getMatchingBlocks (a b : List Char) : List (Nat × Nat × Nat) :=
  mergeAdjacent (matchingBlocksGo a b (a.length + b.length + 1) 0 a.length 0 b.length)
    (0, 0, 0) ++ [(a.length, b.length, 0)]

/-- Total size of a block list. -/
def sumK (l : List (Nat × Nat × Nat)) : Nat := (l.map (fun b => b.2.2)).sum

/-- difflib `M`: the total size of the matching blocks of `a` and `b`. -/
def matchesTotal (a b : List Char) : Nat := sumK (getMatchingBlocks a b)

/-- fuzzywuzzy `utils.intr(100 * ratio)` for `ratio = 2*m/t`: rounding half
to even of `200*m/t`; `t = 0` gives ratio 1.0, hence 100. -/
def intr100 (m t : Nat) : Nat :=
  if t = 0 then 100
  else
    let p := 200 * m
    let d := p / t
    let r := p % t
    if 2 * r < t then d
    else if t < 2 * r then d + 1
    else if d % 2 = 0 then d else d + 1

/-- fuzzywuzzy `fuzz.ratio` with its decorators: equal strings give 100, an
empty side gives 0, otherwise the rounded SequenceMatcher ratio. -/
def fuzz_ratio (s1 s2 : String) : Nat :=
  if s1 = s2 then 100
  else if s1.length = 0 ∨ s2.length = 0 then 0
  else intr100 (matchesTotal s1.data s2.data) (s1.data.length + s2.data.length)

/-- The per-window score inside `fuzz.partial_ratio`: a raw SequenceMatcher
ratio, promoted to 100 above 0.995, else rounded. -/
def seqRatioScore (sh sub : List Char) : Nat :=
  let m := matchesTotal sh sub
  let t := sh.length + sub.length
  if 199 * t < 400 * m then 100 else intr100 m t

/-- fuzzywuzzy `fuzz.partial_ratio` with its decorators: best window of the
longer string, windows aligned at the matching blocks of (shorter, longer). -/
def partial_ratio (s1 s2 : String) : Nat :=
  if s1 = s2 then 100
  else if s1.length = 0 ∨ s2.length = 0 then 0
  else
    let sh := if s1.length ≤ s2.length then s1.data else s2.data
    let lo := if s1.length ≤ s2.length then s2.data else s1.data
    let blocks := getMatchingBlocks sh lo
    let scores := blocks.map (fun blk =>
      let ls := blk.2.1 - blk.1
      seqRatioScore sh ((lo.take (ls + sh.length)).drop ls))
    scores.foldl Nat.max 0

/-- fuzzywuzzy `_process_and_sort`: full-process, split, sort, rejoin, strip. -/
def process_and_sort (s : String) : String :=
  pyStrip (joinWords (sortStrings (pySplitWs (full_process s))))

/-- fuzzywuzzy `fuzz.token_sort_ratio` (full processing on). -/
def token_sort_ratio (s1 s2 : String) : Nat :=
  fuzz_ratio (process_and_sort s1) (process_and_sort s2)

/-- fuzzywuzzy `fuzz.token_set_ratio` (full processing on): compare the
sorted token intersection with each side's intersection-plus-difference, and
take the best of the three plain ratios. -/
def token_set_ratio (s1 s2 : String) : Nat :=
  let p1 := full_process s1
  let p2 := full_process s2
  if p1.length = 0 then 0
  else if p2.length = 0 then 0
  else
    let tokens1 := (pySplitWs p1).dedup
    let tokens2 := (pySplitWs p2).dedup
    let sorted_sect := joinWords (sortStrings (tokens1.filter (fun t => tokens2.contains t)))
    let sorted_1to2 := joinWords (sortStrings (tokens1.filter (fun t => !tokens2.contains t)))
    let sorted_2to1 := joinWords (sortStrings (tokens2.filter (fun t => !tokens1.contains t)))
    let combined_1to2 := pyStrip (sorted_sect ++ " " ++ sorted_1to2)
    let combined_2to1 := pyStrip (sorted_sect ++ " " ++ sorted_2to1)
    let ss := pyStrip sorted_sect
    Nat.max (fuzz_ratio ss combined_1to2)
      (Nat.max (fuzz_ratio ss combined_2to1) (fuzz_ratio combined_1to2 combined_2to1))

/-! ## Corpus search (`process.extractOne`) and the matcher -/

/-- fuzzywuzzy `process.extractOne` with `score_cutoff = 0`: the query is
always full-processed; choices are full-processed only when the scorer is
not one of the self-processing token scorers (`preProcessChoices`).  The
first choice of maximal score wins (Python `max`).  `choiceScore` is the
score one choice receives. -/
def choiceScore (scorer : String → String → Nat) (preProcessChoices : Bool)
    (query c : String) : Nat :=
  scorer (full_process query) (if preProcessChoices then full_process c else c)

/-- fuzzywuzzy `process.extractOne` continued: each choice is paired with
its score and Python `max` keeps the first pair of maximal score. -/
def extractOne (scorer : String → String → Nat) (preProcessChoices : Bool)
    (query : String) (choices : List String) : Option (String × Nat) :=
  match choices with
  | [] => none
  | c0 :: rest =>
    let sc := choiceScore scorer preProcessChoices query
    some (pyMaxBy Prod.snd (c0, sc c0) (rest.map (fun c => (c, sc c))))

/-- The per-record body of `match_titles_fuzzy`: the three per-strategy
bests in declaration order and Python `max` by score over them; `none`
exactly when the corpus is empty.  `partial_ratio` is not in extractOne's
self-processing list, so only it gets pre-processed choices. -/
def processRecord (pdf_title_list : List String) (excel_title : String) :
    Option (String × String × Nat) :=
  let m1 := extractOne token_sort_ratio false excel_title pdf_title_list
  let m2 := extractOne partial_ratio true excel_title pdf_title_list
  let m3 := extractOne token_set_ratio false excel_title pdf_title_list
  let cands :=
    (match m1 with | some p => [("token_sort", p.1, p.2)] | none => []) ++
    (match m2 with | some p => [("partial", p.1, p.2)] | none => []) ++
    (match m3 with | some p => [("token_set", p.1, p.2)] | none => [])
  match cands with
  | [] => none
  | c0 :: cs => some (pyMaxBy (fun c => c.2.2) c0 cs)

/-- One accepted match of `match_titles_fuzzy` (the dict value plus its
resolved filename). -/
structure MatchInfo where
  filename : String
  pdf_title : String
  confidence : Nat
  method : String
deriving DecidableEq

/-- The accept/reject decision for one record title: take the best
candidate, compare with the threshold, and resolve the filename through the
first index of the matched title (Python `list.index`). -/
def recordDecision (ptl pfl : List String) (threshold : Nat) (t : String) :
    Option MatchInfo :=
  match processRecord ptl t with
  | none => none
  | some (method, matched, confidence) =>
    if threshold ≤ confidence then
      some ⟨pfl.getD (ptl.indexOf matched) "", matched, confidence, method⟩
    else none

/-- The record loop of `match_titles_fuzzy`: records with a missing (NaN)
title are skipped outright; others land in the matches dict or the
unmatched list.  Both outputs carry ascending record indices, as the
append loop of the source does. -/
def matchLoop (ptl pfl : List String) (threshold : Nat) :
    Nat → List (Option String) → List (Nat × MatchInfo) × List (Nat × String)
  | _, [] => ([], [])
  | i, t? :: rest =>
    let acc := matchLoop ptl pfl threshold (i + 1) rest
    match t? with
    | none => acc
    | some t =>
      match recordDecision ptl pfl threshold t with
      | some info => ((i, info) :: acc.1, acc.2)
      | none => (acc.1, (i, t) :: acc.2)

/-- The result triple of `match_titles_fuzzy`. -/
structure FuzzyOutcome where
  matchesMap : List (Nat × MatchInfo)
  unmatched_articles : List (Nat × String)
  unmatched_pdfs : List String
deriving DecidableEq

/-- The source's `match_titles_fuzzy`: the title index is the insertion
ordered filename-to-title mapping; the catalog title column may hold NaN
(`none`).  Unmatched documents are the index keys never claimed by a
match. -/
def match_titles_fuzzy (pdf_titles : List (String × String))
    (excel_titles : List (Option String)) (threshold : Nat) : FuzzyOutcome :=
  let pdf_title_list := pdf_titles.map Prod.snd
  let pdf_filename_list := pdf_titles.map Prod.fst
  let mu := matchLoop pdf_title_list pdf_filename_list threshold 0 excel_titles
  let matched_filenames := mu.1.map (fun m => m.2.filename)
  ⟨mu.1, mu.2, pdf_filename_list.filter (fun f => !matched_filenames.contains f)⟩

/-- The source's `update_excel_file` restricted to its data transformation:
every row is kept in place and two columns are appended, the matched
filename and the `f"{confidence}%"` annotation, both empty for rows without
a match.  Row contents are opaque (`α`). -/
def update_excel_file {α : Type} (rows : List α) (matchesMap : List (Nat × MatchInfo)) :
    List (α × String × String) :=
  (List.enumFrom 0 rows).map (fun p =>
    match matchesMap.lookup p.1 with
    | some info => (p.2, info.filename, toString info.confidence ++ "%")
    | none => (p.2, "", ""))

/-! ## Generic helper lemmas -/

theorem foldlInvariant {α : Type _} {σ : Type _} (P : σ → Prop) (f : σ → α → σ) :
    ∀ (l : List α) (s : σ), P s → (∀ s' a, a ∈ l → P s' → P (f s' a)) → P (l.foldl f s)
  | [], _, hs, _ => hs
  | a :: l, s, hs, hstep =>
    foldlInvariant P f l (f s a) (hstep s a (List.mem_cons_self a l) hs)
      (fun s' b hb => hstep s' b (List.mem_cons_of_mem a hb))

theorem pyMaxBy_cons {β : Type} (key : β → Nat) (x0 c : β) (cs : List β) :
    pyMaxBy key x0 (c :: cs) = pyMaxBy key (if key x0 < key c then c else x0) cs := rfl

theorem pyMaxBy_mem {β : Type} (key : β → Nat) :
    ∀ (xs : List β) (x0 : β), pyMaxBy key x0 xs ∈ x0 :: xs := by
  intro xs
  induction xs with
  | nil => intro x0; simp [pyMaxBy]
  | cons c cs ih =>
    intro x0
    rw [pyMaxBy_cons]
    rcases List.mem_cons.mp (ih (if key x0 < key c then c else x0)) with h | h
    · rw [h]
      split
      · exact List.mem_cons_of_mem _ (List.mem_cons_self _ _)
      · exact List.mem_cons_self _ _
    · exact List.mem_cons_of_mem _ (List.mem_cons_of_mem _ h)

theorem pyMaxBy_key_ge_init {β : Type} (key : β → Nat) :
    ∀ (xs : List β) (x0 : β), key x0 ≤ key (pyMaxBy key x0 xs) := by
  intro xs
  induction xs with
  | nil => intro x0; exact le_refl _
  | cons c cs ih =>
    intro x0
    rw [pyMaxBy_cons]
    refine le_trans ?_ (ih _)
    split
    · omega
    · exact le_refl _

theorem pyMaxBy_key_ge {β : Type} (key : β → Nat) :
    ∀ (xs : List β) (x0 : β) (x : β), x ∈ x0 :: xs → key x ≤ key (pyMaxBy key x0 xs) := by
  intro xs
  induction xs with
  | nil => intro x0 x hx; rcases List.mem_cons.mp hx with h | h
           · rw [h]; exact le_refl _
           · cases h
  | cons c cs ih =>
    intro x0 x hx
    rw [pyMaxBy_cons]
    rcases List.mem_cons.mp hx with h | h
    · rw [h]
      refine le_trans ?_ (pyMaxBy_key_ge_init key cs _)
      split
      · omega
      · exact le_refl _
    · rcases List.mem_cons.mp h with h' | h'
      · rw [h']
        refine le_trans ?_ (pyMaxBy_key_ge_init key cs _)
        split
        · exact le_refl _
        · omega
      · exact ih _ x (List.mem_cons_of_mem _ h')

theorem extractOne_some_spec {scorer : String → String → Nat} {pp : Bool}
    {q c : String} {s : Nat} {choices : List String}
    (h : extractOne scorer pp q choices = some (c, s)) :
    c ∈ choices ∧ s = choiceScore scorer pp q c ∧
      ∀ c' ∈ choices, choiceScore scorer pp q c' ≤ s := by
  match choices with
  | [] => simp [extractOne] at h
  | c0 :: rest =>
    rw [extractOne] at h
    have hb := Option.some.inj h
    set sc := choiceScore scorer pp q with hsc
    have hmem := pyMaxBy_mem (Prod.snd) (rest.map (fun c => (c, sc c))) (c0, sc c0)
    rw [hb] at hmem
    have hex : ∃ c'' ∈ c0 :: rest, (c, s) = (c'', sc c'') := by
      rcases List.mem_cons.mp hmem with h' | h'
      · exact ⟨c0, List.mem_cons_self _ _, h'⟩
      · rcases List.mem_map.mp h' with ⟨c'', hc'', he⟩
        exact ⟨c'', List.mem_cons_of_mem _ hc'', he.symm⟩
    rcases hex with ⟨c'', hc''mem, he⟩
    have hc : c = c'' := (Prod.mk.injEq _ _ _ _ ▸ he).1
    have hs : s = sc c'' := (Prod.mk.injEq _ _ _ _ ▸ he).2
    subst hc
    refine ⟨hc''mem, hs, ?_⟩
    intro c' hc'
    have hin : (c', sc c') ∈ (c0, sc c0) :: rest.map (fun c => (c, sc c)) := by
      rcases List.mem_cons.mp hc' with h' | h'
      · rw [h']; exact List.mem_cons_self _ _
      · exact List.mem_cons_of_mem _ (List.mem_map.mpr ⟨c', h', rfl⟩)
    have := pyMaxBy_key_ge (Prod.snd) (rest.map (fun c => (c, sc c))) (c0, sc c0) _ hin
    rw [hb] at this
    simpa [hs] using this

theorem extractOne_nonempty (scorer : String → String → Nat) (pp : Bool)
    (q c0 : String) (rest : List String) :
    ∃ p, extractOne scorer pp q (c0 :: rest) = some p := ⟨_, rfl⟩

/-! ## Bounds for the difflib block matcher and the scorers -/

theorem commonPrefixLen_le_left : ∀ (a b : List Char), commonPrefixLen a b ≤ a.length
  | [], b => by cases b <;> simp [commonPrefixLen]
  | _ :: _, [] => by simp [commonPrefixLen]
  | x :: xs, y :: ys => by
    rw [commonPrefixLen]
    split
    · simpa using commonPrefixLen_le_left xs ys
    · simp

theorem matchLenAt_le_left (a b : List Char) (ahi bhi i j : Nat) :
    matchLenAt a b ahi bhi i j ≤ ahi - i := by
  refine le_trans (commonPrefixLen_le_left _ _) ?_
  rw [List.length_drop, List.length_take]
  omega

theorem commonPrefixLen_le_right : ∀ (a b : List Char), commonPrefixLen a b ≤ b.length
  | [], b => by cases b <;> simp [commonPrefixLen]
  | _ :: _, [] => by simp [commonPrefixLen]
  | x :: xs, y :: ys => by
    rw [commonPrefixLen]
    split
    · simpa using commonPrefixLen_le_right xs ys
    · simp

theorem matchLenAt_le_right (a b : List Char) (ahi bhi i j : Nat) :
    matchLenAt a b ahi bhi i j ≤ bhi - j := by
  refine le_trans (commonPrefixLen_le_right _ _) ?_
  rw [List.length_drop, List.length_take]
  omega

theorem findLongestMatch_bounds (a b : List Char) (alo ahi blo bhi : Nat)
    (ha : alo ≤ ahi) (hb : blo ≤ bhi) :
    alo ≤ (findLongestMatch a b alo ahi blo bhi).1 ∧
      blo ≤ (findLongestMatch a b alo ahi blo bhi).2.1 ∧
      (findLongestMatch a b alo ahi blo bhi).1 +
        (findLongestMatch a b alo ahi blo bhi).2.2 ≤ ahi ∧
      (findLongestMatch a b alo ahi blo bhi).2.1 +
        (findLongestMatch a b alo ahi blo bhi).2.2 ≤ bhi := by
  have key : ∀ m : Nat × Nat × Nat,
      m = findLongestMatch a b alo ahi blo bhi →
      alo ≤ m.1 ∧ blo ≤ m.2.1 ∧ m.1 + m.2.2 ≤ ahi ∧ m.2.1 + m.2.2 ≤ bhi := by
    intro m hm
    rw [hm, findLongestMatch]
    refine foldlInvariant
      (fun s : Nat × Nat × Nat =>
        alo ≤ s.1 ∧ blo ≤ s.2.1 ∧ s.1 + s.2.2 ≤ ahi ∧ s.2.1 + s.2.2 ≤ bhi)
      _ _ _ ⟨le_refl _, le_refl _, by simpa using ha, by simpa using hb⟩ ?_
    intro s i hi hs
    have hi' := List.mem_range'_1.mp hi
    refine foldlInvariant
      (fun s : Nat × Nat × Nat =>
        alo ≤ s.1 ∧ blo ≤ s.2.1 ∧ s.1 + s.2.2 ≤ ahi ∧ s.2.1 + s.2.2 ≤ bhi)
      _ _ _ hs ?_
    intro s' j hj hs'
    have hj' := List.mem_range'_1.mp hj
    have h1 := matchLenAt_le_left a b ahi bhi i j
    have h2 := matchLenAt_le_right a b ahi bhi i j
    dsimp only
    split
    · refine ⟨?_, ?_, ?_, ?_⟩ <;> dsimp only <;> omega
    · exact hs'
  exact key _ rfl

theorem sumK_append (l1 l2 : List (Nat × Nat × Nat)) :
    sumK (l1 ++ l2) = sumK l1 + sumK l2 := by simp [sumK]

theorem sumK_cons (x : Nat × Nat × Nat) (l : List (Nat × Nat × Nat)) :
    sumK (x :: l) = x.2.2 + sumK l := by simp [sumK]

theorem matchingBlocksGo_sum_le (a b : List Char) :
    ∀ (fuel alo ahi blo bhi : Nat), alo ≤ ahi → blo ≤ bhi →
      sumK (matchingBlocksGo a b fuel alo ahi blo bhi) ≤ min (ahi - alo) (bhi - blo) := by
  intro fuel
  induction fuel with
  | zero => intro alo ahi blo bhi _ _; simp [matchingBlocksGo, sumK]
  | succ n ih =>
    intro alo ahi blo bhi ha hb
    obtain ⟨h1, h2, h3, h4⟩ := findLongestMatch_bounds a b alo ahi blo bhi ha hb
    rw [matchingBlocksGo]
    split
    · simp [sumK]
    · rename_i hk
      rw [sumK_append, sumK_cons]
      have hL : sumK (if alo < (findLongestMatch a b alo ahi blo bhi).1 ∧
            blo < (findLongestMatch a b alo ahi blo bhi).2.1 then
          matchingBlocksGo a b n alo (findLongestMatch a b alo ahi blo bhi).1
            blo (findLongestMatch a b alo ahi blo bhi).2.1 else []) ≤
          min ((findLongestMatch a b alo ahi blo bhi).1 - alo)
            ((findLongestMatch a b alo ahi blo bhi).2.1 - blo) := by
        split
        · exact ih _ _ _ _ h1 h2
        · simp [sumK]
      have hR : sumK (if (findLongestMatch a b alo ahi blo bhi).1 +
              (findLongestMatch a b alo ahi blo bhi).2.2 < ahi ∧
            (findLongestMatch a b alo ahi blo bhi).2.1 +
              (findLongestMatch a b alo ahi blo bhi).2.2 < bhi then
          matchingBlocksGo a b n
            ((findLongestMatch a b alo ahi blo bhi).1 +
              (findLongestMatch a b alo ahi blo bhi).2.2) ahi
            ((findLongestMatch a b alo ahi blo bhi).2.1 +
              (findLongestMatch a b alo ahi blo bhi).2.2) bhi else []) ≤
          min (ahi - ((findLongestMatch a b alo ahi blo bhi).1 +
              (findLongestMatch a b alo ahi blo bhi).2.2))
            (bhi - ((findLongestMatch a b alo ahi blo bhi).2.1 +
              (findLongestMatch a b alo ahi blo bhi).2.2)) := by
        split
        · rename_i hlt; exact ih _ _ _ _ (by omega) (by omega)
        · simp [sumK]
      have hLa := le_trans hL (min_le_left _ _)
      have hLb := le_trans hL (min_le_right _ _)
      have hRa := le_trans hR (min_le_left _ _)
      have hRb := le_trans hR (min_le_right _ _)
      refine le_min ?_ ?_ <;> omega

theorem mergeAdjacent_sum :
    ∀ (l : List (Nat × Nat × Nat)) (acc : Nat × Nat × Nat),
      sumK (mergeAdjacent l acc) = acc.2.2 + sumK l := by
  intro l
  induction l with
  | nil =>
    intro acc
    rw [mergeAdjacent]
    split
    · rename_i h; simp [sumK, h]
    · simp [sumK]
  | cons blk rest ih =>
    intro acc
    rw [mergeAdjacent]
    split
    · rw [ih, sumK_cons]; simp; omega
    · split
      · rename_i _ h; rw [ih, sumK_cons]; omega
      · rw [sumK_cons, ih, sumK_cons]

theorem matchesTotal_le (a b : List Char) :
    matchesTotal a b ≤ min a.length b.length := by
  rw [matchesTotal, getMatchingBlocks, sumK_append, mergeAdjacent_sum]
  have h := matchingBlocksGo_sum_le a b (a.length + b.length + 1) 0 a.length 0 b.length
    (Nat.zero_le _) (Nat.zero_le _)
  simp only [Nat.sub_zero] at h
  have h0 : sumK [(a.length, b.length, 0)] = 0 := by simp [sumK]
  rw [h0]
  simpa using h

theorem intr100_le {m t : Nat} (h : 2 * m ≤ t) : intr100 m t ≤ 100 := by
  rw [intr100]
  split
  · exact le_refl _
  · rename_i ht
    have hdm := Nat.div_add_mod (200 * m) t
    have hmod := Nat.mod_lt (200 * m) (Nat.pos_of_ne_zero ht)
    have hd : 200 * m / t ≤ 100 := by
      by_contra hgt
      push_neg at hgt
      have : 101 * t ≤ 200 * m := (Nat.le_div_iff_mul_le (Nat.pos_of_ne_zero ht)).mp hgt
      omega
    simp only
    split
    · exact hd
    · split
      · rename_i hlt
        rcases Nat.lt_or_ge (200 * m / t) 100 with hc | hc
        · omega
        · have he : 200 * m / t = 100 := le_antisymm hd hc
          rw [he] at hdm
          omega
      · split
        · exact hd
        · rcases Nat.lt_or_ge (200 * m / t) 100 with hc | hc
          · omega
          · have he : 200 * m / t = 100 := le_antisymm hd hc
            rw [he] at hdm
            omega

theorem fuzz_ratio_le (s1 s2 : String) : fuzz_ratio s1 s2 ≤ 100 := by
  rw [fuzz_ratio]
  split
  · exact le_refl _
  · split
    · omega
    · have := matchesTotal_le s1.data s2.data
      exact intr100_le (by omega)

theorem seqRatioScore_le (sh sub : List Char) : seqRatioScore sh sub ≤ 100 := by
  rw [seqRatioScore]
  split
  · exact le_refl _
  · have := matchesTotal_le sh sub
    exact intr100_le (by omega)

theorem foldMaxNat_le {l : List Nat} (h : ∀ x ∈ l, x ≤ 100) :
    l.foldl Nat.max 0 ≤ 100 := by
  refine foldlInvariant (fun x : Nat => x ≤ 100) _ _ _ (Nat.zero_le _) ?_
  intro s x hx hs
  exact Nat.max_le.mpr ⟨hs, h x hx⟩

theorem partial_ratio_le (s1 s2 : String) : partial_ratio s1 s2 ≤ 100 := by
  rw [partial_ratio]
  split
  · exact le_refl _
  · split
    · omega
    · dsimp only
      apply foldMaxNat_le
      intro x hx
      rcases List.mem_map.mp hx with ⟨blk, _, he⟩
      rw [← he]
      exact seqRatioScore_le _ _

theorem token_sort_ratio_le (s1 s2 : String) : token_sort_ratio s1 s2 ≤ 100 :=
  fuzz_ratio_le _ _

theorem token_set_ratio_le (s1 s2 : String) : token_set_ratio s1 s2 ≤ 100 := by
  rw [token_set_ratio]
  split
  · omega
  · split
    · omega
    · exact Nat.max_le.mpr ⟨fuzz_ratio_le _ _,
        Nat.max_le.mpr ⟨fuzz_ratio_le _ _, fuzz_ratio_le _ _⟩⟩

/-! ## Idempotence of full processing -/

theorem char_toNat_ofNat_valid (n : Nat) (h : n.isValidChar) :
    (Char.ofNat n).toNat = n := by
  simp only [Char.ofNat, dif_pos h]
  rfl

theorem isUpper_iff (c : Char) : c.isUpper = true ↔ 65 ≤ c.toNat ∧ c.toNat ≤ 90 := by
  simp only [Char.isUpper, Bool.and_eq_true, decide_eq_true_eq, ge_iff_le,
    UInt32.le_def, BitVec.le_def]
  exact Iff.rfl

theorem isLower_iff (c : Char) : c.isLower = true ↔ 97 ≤ c.toNat ∧ c.toNat ≤ 122 := by
  simp only [Char.isLower, Bool.and_eq_true, decide_eq_true_eq, ge_iff_le,
    UInt32.le_def, BitVec.le_def]
  exact Iff.rfl

theorem isDigit_iff (c : Char) : c.isDigit = true ↔ 48 ≤ c.toNat ∧ c.toNat ≤ 57 := by
  simp only [Char.isDigit, Bool.and_eq_true, decide_eq_true_eq, ge_iff_le,
    UInt32.le_def, BitVec.le_def]
  exact Iff.rfl

theorem toLower_eq_self {c : Char} (h : ¬(65 ≤ c.toNat ∧ c.toNat ≤ 90)) :
    c.toLower = c := by
  rw [Char.toLower, if_neg]
  exact h

theorem toLower_idem (c : Char) : c.toLower.toLower = c.toLower := by
  by_cases h : 65 ≤ c.toNat ∧ c.toNat ≤ 90
  · have hv : (c.toNat + 32).isValidChar := Or.inl (by omega)
    have h1 : c.toLower = Char.ofNat (c.toNat + 32) := by
      rw [Char.toLower, if_pos]
      exact ⟨h.1, h.2⟩
    have ht : (Char.ofNat (c.toNat + 32)).toNat = c.toNat + 32 :=
      char_toNat_ofNat_valid _ hv
    rw [h1]
    apply toLower_eq_self
    omega
  · rw [toLower_eq_self h, toLower_eq_self h]

theorem toLower_isAlphanum {c : Char} (h : c.isAlphanum = true) :
    c.toLower.isAlphanum = true := by
  rw [Char.isAlphanum, Bool.or_eq_true, Char.isAlpha, Bool.or_eq_true] at h
  rcases h with (hu | hl) | hd
  · have h' := (isUpper_iff c).mp hu
    have hv : (c.toNat + 32).isValidChar := Or.inl (by omega)
    have h1 : c.toLower = Char.ofNat (c.toNat + 32) := by
      rw [Char.toLower, if_pos]
      exact ⟨h'.1, h'.2⟩
    have ht : (Char.ofNat (c.toNat + 32)).toNat = c.toNat + 32 :=
      char_toNat_ofNat_valid _ hv
    rw [h1, Char.isAlphanum, Bool.or_eq_true, Char.isAlpha, Bool.or_eq_true]
    refine Or.inl (Or.inr ?_)
    rw [isLower_iff, ht]
    omega
  · have h' := (isLower_iff c).mp hl
    rw [toLower_eq_self (by omega)]
    simp [Char.isAlphanum, Char.isAlpha, hl]
  · have h' := (isDigit_iff c).mp hd
    rw [toLower_eq_self (by omega)]
    simp [Char.isAlphanum, hd]

theorem normChar_idem (c : Char) : normChar (normChar c) = normChar c := by
  by_cases h : (c.isAlphanum || c == '_') = true
  · have h1 : normChar c = c.toLower := by rw [normChar, if_pos h]
    rw [h1]
    rcases Bool.or_eq_true _ _ |>.mp h with ha | he
    · have h2 : (c.toLower.isAlphanum || c.toLower == '_') = true := by
        simp [toLower_isAlphanum ha]
      rw [normChar, if_pos h2, toLower_idem]
    · have he' : c = '_' := by simpa using he
      subst he'
      decide
  · have h1 : normChar c = ' ' := by rw [normChar, if_neg h]
    rw [h1]
    decide

theorem map_eq_self_of {α : Type _} {f : α → α} {l : List α}
    (h : ∀ x ∈ l, f x = x) : l.map f = l := by
  rw [List.map_congr_left h, List.map_id']

theorem mem_pyStripChars {x : Char} {l : List Char} (h : x ∈ pyStripChars l) :
    x ∈ l := by
  rw [pyStripChars, List.mem_reverse] at h
  have h1 := (List.dropWhile_sublist (l := (l.dropWhile isPyWS).reverse) isPyWS).subset h
  rw [List.mem_reverse] at h1
  exact (List.dropWhile_sublist isPyWS).subset h1

theorem dropWhile_self_idem (p : Char → Bool) (l : List Char) :
    List.dropWhile p (List.dropWhile p l) = List.dropWhile p l := by
  induction l with
  | nil => simp
  | cons c rest ih =>
    by_cases hc : p c = true
    · rw [List.dropWhile_cons_of_pos hc, ih]
    · rw [List.dropWhile_cons_of_neg hc, List.dropWhile_cons_of_neg hc]

theorem dropWhile_head?_false {p : Char → Bool} {l : List Char} {c : Char}
    (h : (List.dropWhile p l).head? = some c) : p c = false := by
  have := List.head?_dropWhile_not p l
  rw [h] at this
  exact this

theorem dropWhile_eq_self_of_head? {p : Char → Bool} {l : List Char} {c : Char}
    (h : l.head? = some c) (hc : p c = false) : List.dropWhile p l = l := by
  cases l with
  | nil => simp at h
  | cons x xs =>
    have hx : x = c := by simpa using h
    subst hx
    rw [List.dropWhile_cons_of_neg (by simp [hc])]

theorem getLast?_dropWhile {p : Char → Bool} {l : List Char}
    (h : List.dropWhile p l ≠ []) :
    (List.dropWhile p l).getLast? = l.getLast? := by
  obtain ⟨t, ht⟩ := List.dropWhile_suffix p (l := l)
  conv_rhs => rw [← ht]
  rw [List.getLast?_append]
  cases hd : (List.dropWhile p l).getLast? with
  | none => exact absurd (List.getLast?_eq_none_iff.mp hd) h
  | some x => rfl

theorem pyStripChars_idem (l : List Char) :
    pyStripChars (pyStripChars l) = pyStripChars l := by
  set A := List.dropWhile isPyWS l with hA
  set C := List.dropWhile isPyWS A.reverse with hC
  have hS : pyStripChars l = C.reverse := rfl
  cases hCc : C with
  | nil => rw [hS, hCc]; simp [pyStripChars]
  | cons x xs =>
    have hCne : C ≠ [] := by rw [hCc]; simp
    have hfirst : List.dropWhile isPyWS C.reverse = C.reverse := by
      have h1 : C.reverse.head? = C.getLast? := List.head?_reverse C
      have h2 : C.getLast? = A.reverse.getLast? := getLast?_dropWhile hCne
      have h3 : A.reverse.getLast? = A.head? := List.getLast?_reverse A
      have hAne : A ≠ [] := by
        intro hAe
        rw [hAe] at hC
        simp at hC
        exact hCne hC
      obtain ⟨a, ha⟩ := Option.ne_none_iff_exists'.mp
        (fun he => hAne (List.head?_eq_none_iff.mp he))
      have hpa : isPyWS a = false := dropWhile_head?_false (l := l) (by rw [← hA]; exact ha)
      exact dropWhile_eq_self_of_head? (by rw [h1, h2, h3]; exact ha) hpa
    rw [hS]
    show ((C.reverse.dropWhile isPyWS).reverse.dropWhile isPyWS).reverse = C.reverse
    rw [hfirst, List.reverse_reverse, hC, dropWhile_self_idem]

theorem full_process_idem (s : String) :
    full_process (full_process s) = full_process s := by
  show (⟨pyStripChars ((pyStripChars (s.data.map normChar)).map normChar)⟩ : String) = _
  have h1 : (pyStripChars (s.data.map normChar)).map normChar
      = pyStripChars (s.data.map normChar) := by
    apply map_eq_self_of
    intro x hx
    have hx' := mem_pyStripChars hx
    rcases List.mem_map.mp hx' with ⟨y, _, hy⟩
    rw [← hy, normChar_idem]
  rw [h1, pyStripChars_idem]
  rfl

/-! ## The scorers on an identical record/document pair -/

theorem process_and_sort_fp (s : String) :
    process_and_sort (full_process s) = process_and_sort s := by
  rw [process_and_sort, process_and_sort, full_process_idem]

theorem token_sort_ratio_fp_self (q : String) :
    token_sort_ratio (full_process q) q = 100 := by
  rw [token_sort_ratio, process_and_sort_fp, fuzz_ratio, if_pos rfl]

theorem partial_ratio_self (s : String) : partial_ratio s s = 100 := by
  rw [partial_ratio, if_pos rfl]

theorem pyStripChars_append_space (l : List Char) :
    pyStripChars (l ++ [' ']) = pyStripChars l := by
  rw [pyStripChars, pyStripChars, List.dropWhile_append]
  split
  · rename_i he
    rw [List.isEmpty_iff] at he
    rw [he]
    simp [List.dropWhile]
  · rename_i he
    rw [List.reverse_append]
    show (List.dropWhile isPyWS (' ' :: _)).reverse = _
    rw [List.dropWhile_cons_of_pos (by decide)]
    simp

theorem pyStrip_append_space (S : String) : pyStrip (S ++ " ") = pyStrip S := by
  rw [pyStrip, pyStrip, String.ext_iff]
  show pyStripChars (S ++ " ").data = pyStripChars S.data
  rw [String.data_append]
  exact pyStripChars_append_space S.data

theorem token_set_ratio_fp_self (q : String) (h : full_process q ≠ "") :
    token_set_ratio (full_process q) q = 100 := by
  rw [token_set_ratio, full_process_idem]
  have hlen : ¬ (full_process q).length = 0 := by
    intro h0
    exact h (String.ext_iff.mpr (List.length_eq_zero.mp h0))
  rw [if_neg hlen, if_neg hlen]
  have hfilter_in : ((pySplitWs (full_process q)).dedup).filter
      (fun t => ((pySplitWs (full_process q)).dedup).contains t)
      = (pySplitWs (full_process q)).dedup := by
    rw [List.filter_eq_self]
    intro t ht
    exact List.elem_iff.mpr ht
  have hfilter_out : ((pySplitWs (full_process q)).dedup).filter
      (fun t => !((pySplitWs (full_process q)).dedup).contains t) = [] := by
    rw [List.filter_eq_nil_iff]
    intro t ht
    have hc : ((pySplitWs (full_process q)).dedup).contains t = true :=
      List.elem_iff.mpr ht
    rw [hc]
    decide
  dsimp only
  rw [hfilter_in, hfilter_out]
  have hjoin : joinWords (sortStrings []) = "" := rfl
  rw [hjoin, String.append_empty, pyStrip_append_space]
  simp [fuzz_ratio]

theorem extractOne_best_100 {scorer : String → String → Nat} {pp : Bool}
    {q : String} {choices : List String} (hq : q ∈ choices)
    (hle : ∀ c ∈ choices, choiceScore scorer pp q c ≤ 100)
    (h100 : choiceScore scorer pp q q = 100) :
    ∃ c ∈ choices, extractOne scorer pp q choices = some (c, 100) := by
  match choices, hq with
  | c0 :: rest, hq =>
    obtain ⟨p, hp⟩ := extractOne_nonempty scorer pp q c0 rest
    obtain ⟨c, s⟩ := p
    obtain ⟨hmem, hs, hge⟩ := extractOne_some_spec hp
    have h1 : s ≤ 100 := hs ▸ hle c hmem
    have h2 : 100 ≤ s := h100 ▸ hge q hq
    have : s = 100 := le_antisymm h1 h2
    subst this
    exact ⟨c, hmem, hp⟩

/-! ## Characterizing the record loop of the matcher -/

theorem processRecord_eq {ptl : List String} {t a1 a2 a3 : String} {s1 s2 s3 : Nat}
    (h1 : extractOne token_sort_ratio false t ptl = some (a1, s1))
    (h2 : extractOne partial_ratio true t ptl = some (a2, s2))
    (h3 : extractOne token_set_ratio false t ptl = some (a3, s3)) :
    processRecord ptl t =
      some (pyMaxBy (fun c => c.2.2) ("token_sort", a1, s1)
        [("partial", a2, s2), ("token_set", a3, s3)]) := by
  rw [processRecord, h1, h2, h3]
  rfl

theorem processRecord_none_of_nil {t : String} : processRecord [] t = none := rfl

theorem processRecord_some_spec {ptl : List String} {t me ma : String} {c : Nat}
    (h : processRecord ptl t = some (me, ma, c)) :
    ma ∈ ptl ∧ c ≤ 100 := by
  cases ptl with
  | nil => rw [processRecord_none_of_nil] at h; cases h
  | cons p ps =>
    obtain ⟨x1, h1⟩ := extractOne_nonempty token_sort_ratio false t p ps
    obtain ⟨x2, h2⟩ := extractOne_nonempty partial_ratio true t p ps
    obtain ⟨x3, h3⟩ := extractOne_nonempty token_set_ratio false t p ps
    obtain ⟨a1, s1⟩ := x1
    obtain ⟨a2, s2⟩ := x2
    obtain ⟨a3, s3⟩ := x3
    rw [processRecord_eq h1 h2 h3] at h
    have hb := Option.some.inj h
    have hmem := pyMaxBy_mem (fun c => c.2.2)
      [("partial", a2, s2), ("token_set", a3, s3)] ("token_sort", a1, s1)
    rw [hb] at hmem
    obtain ⟨m1, hs1, hg1⟩ := extractOne_some_spec h1
    obtain ⟨m2, hs2, hg2⟩ := extractOne_some_spec h2
    obtain ⟨m3, hs3, hg3⟩ := extractOne_some_spec h3
    rcases List.mem_cons.mp hmem with he | he
    · have hma : ma = a1 := congrArg (fun x => x.2.1) he
      have hc : c = s1 := congrArg (fun x => x.2.2) he
      refine ⟨hma ▸ m1, ?_⟩
      rw [hc, hs1, choiceScore]
      exact token_sort_ratio_le _ _
    · rcases List.mem_cons.mp he with he' | he'
      · have hma : ma = a2 := congrArg (fun x => x.2.1) he'
        have hc : c = s2 := congrArg (fun x => x.2.2) he'
        refine ⟨hma ▸ m2, ?_⟩
        rw [hc, hs2, choiceScore]
        exact partial_ratio_le _ _
      · rcases List.mem_cons.mp he' with he'' | he''
        · have hma : ma = a3 := congrArg (fun x => x.2.1) he''
          have hc : c = s3 := congrArg (fun x => x.2.2) he''
          refine ⟨hma ▸ m3, ?_⟩
          rw [hc, hs3, choiceScore]
          exact token_set_ratio_le _ _
        · cases he''

theorem choiceScore_false (scorer : String → String → Nat) (q c : String) :
    choiceScore scorer false q c = scorer (full_process q) c := rfl

theorem choiceScore_true (scorer : String → String → Nat) (q c : String) :
    choiceScore scorer true q c = scorer (full_process q) (full_process c) := rfl

theorem processRecord_conf_100 {ptl : List String} {q : String}
    (hq : q ∈ ptl) (hne : full_process q ≠ "") :
    ∃ r, processRecord ptl q = some r ∧ r.2.2 = 100 := by
  have hts : ∃ c ∈ ptl, extractOne token_sort_ratio false q ptl = some (c, 100) :=
    extractOne_best_100 hq
      (fun c _ => by rw [choiceScore]; exact token_sort_ratio_le _ _)
      (by rw [choiceScore_false]; exact token_sort_ratio_fp_self q)
  have hpr : ∃ c ∈ ptl, extractOne partial_ratio true q ptl = some (c, 100) :=
    extractOne_best_100 hq
      (fun c _ => by rw [choiceScore]; exact partial_ratio_le _ _)
      (by rw [choiceScore_true]; exact partial_ratio_self _)
  have htt : ∃ c ∈ ptl, extractOne token_set_ratio false q ptl = some (c, 100) :=
    extractOne_best_100 hq
      (fun c _ => by rw [choiceScore]; exact token_set_ratio_le _ _)
      (by rw [choiceScore_false]; exact token_set_ratio_fp_self q hne)
  obtain ⟨a1, _, h1⟩ := hts
  obtain ⟨a2, _, h2⟩ := hpr
  obtain ⟨a3, _, h3⟩ := htt
  refine ⟨_, processRecord_eq h1 h2 h3, ?_⟩
  have hmem := pyMaxBy_mem (fun c => c.2.2)
    [("partial", a2, 100), ("token_set", a3, 100)] ("token_sort", a1, 100)
  rcases List.mem_cons.mp hmem with he | he
  · rw [he]
  · rcases List.mem_cons.mp he with he' | he'
    · rw [he']
    · rcases List.mem_cons.mp he' with he'' | he''
      · rw [he'']
      · cases he''

theorem recordDecision_eq_some {ptl : List String} (pfl : List String) (th : Nat)
    {t me ma : String}
    {c : Nat} (hp : processRecord ptl t = some (me, ma, c)) (hth : th ≤ c) :
    recordDecision ptl pfl th t =
      some ⟨pfl.getD (ptl.indexOf ma) "", ma, c, me⟩ := by
  unfold recordDecision
  rw [hp]
  dsimp only
  rw [if_pos hth]

theorem recordDecision_eq_none_low {ptl : List String} (pfl : List String) (th : Nat)
    {t me ma : String} {c : Nat} (hp : processRecord ptl t = some (me, ma, c))
    (hth : ¬ th ≤ c) : recordDecision ptl pfl th t = none := by
  unfold recordDecision
  rw [hp]
  dsimp only
  rw [if_neg hth]

theorem recordDecision_eq_none_empty {ptl : List String} (pfl : List String) (th : Nat)
    {t : String} (hp : processRecord ptl t = none) :
    recordDecision ptl pfl th t = none := by
  unfold recordDecision
  rw [hp]

theorem recordDecision_some_inv {ptl pfl : List String} {th : Nat} {t : String}
    {info : MatchInfo} (h : recordDecision ptl pfl th t = some info) :
    ∃ me ma c, processRecord ptl t = some (me, ma, c) ∧ th ≤ c ∧
      info = ⟨pfl.getD (ptl.indexOf ma) "", ma, c, me⟩ := by
  cases hp : processRecord ptl t with
  | none => rw [recordDecision_eq_none_empty pfl th hp] at h; cases h
  | some x =>
    obtain ⟨me, ma, c⟩ := x
    by_cases hth : th ≤ c
    · rw [recordDecision_eq_some pfl th hp hth] at h
      exact ⟨me, ma, c, rfl, hth, (Option.some.inj h).symm⟩
    · rw [recordDecision_eq_none_low pfl th hp hth] at h
      cases h

theorem matchLoop_nil {ptl pfl : List String} {th : Nat} {i0 : Nat} :
    matchLoop ptl pfl th i0 [] = ([], []) := rfl

theorem matchLoop_cons_none {ptl pfl : List String} {th : Nat} {i0 : Nat}
    {rest : List (Option String)} :
    matchLoop ptl pfl th i0 (none :: rest) = matchLoop ptl pfl th (i0 + 1) rest := rfl

theorem matchLoop_cons_some {ptl pfl : List String} {th : Nat} {i0 : Nat}
    {t0 : String} {rest : List (Option String)} :
    matchLoop ptl pfl th i0 (some t0 :: rest) =
      match recordDecision ptl pfl th t0 with
      | some info =>
        ((i0, info) :: (matchLoop ptl pfl th (i0 + 1) rest).1,
          (matchLoop ptl pfl th (i0 + 1) rest).2)
      | none =>
        ((matchLoop ptl pfl th (i0 + 1) rest).1,
          (i0, t0) :: (matchLoop ptl pfl th (i0 + 1) rest).2) := rfl

theorem matchLoop_mem_matches {ptl pfl : List String} {th : Nat} :
    ∀ (l : List (Option String)) (i0 j : Nat) (info : MatchInfo),
      (j, info) ∈ (matchLoop ptl pfl th i0 l).1 ↔
        ∃ k t, i0 + k = j ∧ l.get? k = some (some t) ∧
          recordDecision ptl pfl th t = some info := by
  intro l
  induction l with
  | nil =>
    intro i0 j info
    rw [matchLoop_nil]
    simp
  | cons t? rest ih =>
    intro i0 j info
    cases t? with
    | none =>
      rw [matchLoop_cons_none, ih]
      constructor
      · rintro ⟨k, t, hk, hget, hrd⟩
        exact ⟨k + 1, t, by omega, by simpa using hget, hrd⟩
      · rintro ⟨k, t, hk, hget, hrd⟩
        cases k with
        | zero => simp at hget
        | succ k' => exact ⟨k', t, by omega, by simpa using hget, hrd⟩
    | some t0 =>
      rw [matchLoop_cons_some]
      cases hrd0 : recordDecision ptl pfl th t0 with
      | some info0 =>
        simp only [List.mem_cons, ih]
        constructor
        · rintro (he | ⟨k, t, hk, hget, hrd⟩)
          · obtain ⟨hj, hinfo⟩ := Prod.mk.injEq _ _ _ _ ▸ he
            exact ⟨0, t0, by omega, by simp, by rw [hrd0, hinfo]⟩
          · exact ⟨k + 1, t, by omega, by simpa using hget, hrd⟩
        · rintro ⟨k, t, hk, hget, hrd⟩
          cases k with
          | zero =>
            have ht : t = t0 := by simpa using hget.symm
            subst ht
            rw [hrd0] at hrd
            left
            have : info = info0 := (Option.some.inj hrd).symm
            rw [this]
            have : j = i0 := by omega
            rw [this]
          | succ k' =>
            right
            exact ⟨k', t, by omega, by simpa using hget, hrd⟩
      | none =>
        simp only [ih]
        constructor
        · rintro ⟨k, t, hk, hget, hrd⟩
          exact ⟨k + 1, t, by omega, by simpa using hget, hrd⟩
        · rintro ⟨k, t, hk, hget, hrd⟩
          cases k with
          | zero =>
            have ht : t = t0 := by simpa using hget.symm
            subst ht
            rw [hrd0] at hrd
            cases hrd
          | succ k' =>
            exact ⟨k', t, by omega, by simpa using hget, hrd⟩

theorem matchLoop_mem_unmatched {ptl pfl : List String} {th : Nat} :
    ∀ (l : List (Option String)) (i0 j : Nat) (s : String),
      (j, s) ∈ (matchLoop ptl pfl th i0 l).2 ↔
        ∃ k, i0 + k = j ∧ l.get? k = some (some s) ∧
          recordDecision ptl pfl th s = none := by
  intro l
  induction l with
  | nil =>
    intro i0 j s
    rw [matchLoop_nil]
    simp
  | cons t? rest ih =>
    intro i0 j s
    cases t? with
    | none =>
      rw [matchLoop_cons_none, ih]
      constructor
      · rintro ⟨k, hk, hget, hrd⟩
        exact ⟨k + 1, by omega, by simpa using hget, hrd⟩
      · rintro ⟨k, hk, hget, hrd⟩
        cases k with
        | zero => simp at hget
        | succ k' => exact ⟨k', by omega, by simpa using hget, hrd⟩
    | some t0 =>
      rw [matchLoop_cons_some]
      cases hrd0 : recordDecision ptl pfl th t0 with
      | some info0 =>
        simp only [ih]
        constructor
        · rintro ⟨k, hk, hget, hrd⟩
          exact ⟨k + 1, by omega, by simpa using hget, hrd⟩
        · rintro ⟨k, hk, hget, hrd⟩
          cases k with
          | zero =>
            have ht : s = t0 := by simpa using hget.symm
            subst ht
            rw [hrd0] at hrd
            cases hrd
          | succ k' =>
            exact ⟨k', by omega, by simpa using hget, hrd⟩
      | none =>
        simp only [List.mem_cons, ih]
        constructor
        · rintro (he | ⟨k, hk, hget, hrd⟩)
          · obtain ⟨hj, hs⟩ := Prod.mk.injEq _ _ _ _ ▸ he
            exact ⟨0, by omega, by simp [hs], by rw [hs, hrd0]⟩
          · exact ⟨k + 1, by omega, by simpa using hget, hrd⟩
        · rintro ⟨k, hk, hget, hrd⟩
          cases k with
          | zero =>
            have ht : s = t0 := by simpa using hget.symm
            left
            rw [ht]
            have : j = i0 := by omega
            rw [this]
          | succ k' =>
            right
            exact ⟨k', by omega, by simpa using hget, hrd⟩

theorem matchLoop_filter {ptl pfl : List String} {t1 t2 : Nat} (h12 : t1 ≤ t2) :
    ∀ (l : List (Option String)) (i0 : Nat),
      (matchLoop ptl pfl t2 i0 l).1 =
        (matchLoop ptl pfl t1 i0 l).1.filter (fun m => decide (t2 ≤ m.2.confidence)) := by
  intro l
  induction l with
  | nil => intro i0; rw [matchLoop_nil, matchLoop_nil]; rfl
  | cons t? rest ih =>
    intro i0
    cases t? with
    | none => rw [matchLoop_cons_none, matchLoop_cons_none, ih]
    | some t0 =>
      rw [matchLoop_cons_some, matchLoop_cons_some]
      cases hp : processRecord ptl t0 with
      | none =>
        rw [recordDecision_eq_none_empty pfl t1 hp,
          recordDecision_eq_none_empty pfl t2 hp]
        dsimp only
        exact ih (i0 + 1)
      | some x =>
        obtain ⟨me, ma, c⟩ := x
        by_cases hc2 : t2 ≤ c
        · have hc1 : t1 ≤ c := le_trans h12 hc2
          rw [recordDecision_eq_some pfl t1 hp hc1,
            recordDecision_eq_some pfl t2 hp hc2]
          dsimp only
          rw [List.filter_cons_of_pos (by simpa using hc2), ih]
        · by_cases hc1 : t1 ≤ c
          · rw [recordDecision_eq_some pfl t1 hp hc1,
              recordDecision_eq_none_low pfl t2 hp hc2]
            dsimp only
            rw [List.filter_cons_of_neg (by simpa using hc2), ih]
          · rw [recordDecision_eq_none_low pfl t1 hp hc1,
              recordDecision_eq_none_low pfl t2 hp hc2]
            dsimp only
            exact ih (i0 + 1)

theorem mtf_matchesMap (pdfs : List (String × String)) (excel : List (Option String))
    (th : Nat) :
    (match_titles_fuzzy pdfs excel th).matchesMap =
      (matchLoop (pdfs.map Prod.snd) (pdfs.map Prod.fst) th 0 excel).1 := rfl

theorem mtf_unmatched_articles (pdfs : List (String × String))
    (excel : List (Option String)) (th : Nat) :
    (match_titles_fuzzy pdfs excel th).unmatched_articles =
      (matchLoop (pdfs.map Prod.snd) (pdfs.map Prod.fst) th 0 excel).2 := rfl

theorem mtf_unmatched_pdfs (pdfs : List (String × String))
    (excel : List (Option String)) (th : Nat) :
    (match_titles_fuzzy pdfs excel th).unmatched_pdfs =
      (pdfs.map Prod.fst).filter (fun f =>
        !((match_titles_fuzzy pdfs excel th).matchesMap.map
          (fun m => m.2.filename)).contains f) := rfl

theorem indexOf_le_of_get {l : List String} {i : Nat} {a : String}
    (h : i < l.length) (ha : l.get ⟨i, h⟩ = a) : l.indexOf a ≤ i := by
  induction l generalizing i with
  | nil => simp at h
  | cons x xs ih =>
    cases i with
    | zero =>
      have : x = a := ha
      subst this
      simp [List.indexOf_cons_self]
    | succ i' =>
      by_cases hx : x = a
      · subst hx; simp [List.indexOf_cons_self]
      · rw [List.indexOf_cons_ne _ (by simpa using hx)]
        have := ih (i := i') (by simpa using h) (by simpa using ha)
        omega

theorem matchesMap_conf_le {pdfs : List (String × String)}
    {excel : List (Option String)} {th j : Nat} {info : MatchInfo}
    (h : (j, info) ∈ (match_titles_fuzzy pdfs excel th).matchesMap) :
    info.confidence ≤ 100 := by
  rw [mtf_matchesMap] at h
  obtain ⟨k, t, _, _, hrd⟩ := (matchLoop_mem_matches excel 0 j info).mp h
  obtain ⟨me, ma, c, hp, _, hinfo⟩ := recordDecision_some_inv hrd
  rw [hinfo]
  exact (processRecord_some_spec hp).2

theorem lookup_mem {ms : List (Nat × MatchInfo)} {i : Nat} {info : MatchInfo}
    (h : ms.lookup i = some info) : (i, info) ∈ ms := by
  induction ms with
  | nil => simp [List.lookup] at h
  | cons p rest ih =>
    obtain ⟨k, v⟩ := p
    rw [List.lookup] at h
    by_cases hik : i = k
    · subst hik
      simp only [beq_self_eq_true] at h
      have : v = info := Option.some.inj h
      rw [← this]
      exact List.mem_cons_self _ _
    · have hbeq : (i == k) = false := beq_eq_false_iff_ne.mpr hik
      rw [hbeq] at h
      exact List.mem_cons_of_mem _ (ih h)

/-- C7: the per-record selection takes, among the three per-strategy bests,
the first candidate of maximal score in the declaration order token-sort,
partial, token-set. -/
theorem C7_best_strategy_selection {ptl : List String} {q a1 a2 a3 : String}
    {s1 s2 s3 : Nat}
    (h1 : extractOne token_sort_ratio false q ptl = some (a1, s1))
    (h2 : extractOne partial_ratio true q ptl = some (a2, s2))
    (h3 : extractOne token_set_ratio false q ptl = some (a3, s3)) :
    processRecord ptl q =
      some (if s1 < s2 then
          (if s2 < s3 then ("token_set", a3, s3) else ("partial", a2, s2))
        else
          (if s1 < s3 then ("token_set", a3, s3) else ("token_sort", a1, s1))) := by
  rw [processRecord_eq h1 h2 h3]
  by_cases h12 : s1 < s2
  · simp only [pyMaxBy, List.foldl]
    by_cases h23 : s2 < s3 <;> simp [h12, h23]
  · simp only [pyMaxBy, List.foldl]
    by_cases h13 : s1 < s3 <;> simp [h12, h13]

/-- C1 (amended): a document identifier may be bound by several MatchResults
(records are scored independently; no claiming occurs), but every document
identifier of the index lies in exactly one of {bound by some MatchResult,
unmatchedDocuments}. -/
theorem C1_document_partition (pdfs : List (String × String))
    (excel : List (Option String)) (th : Nat) (f : String)
    (hf : f ∈ pdfs.map Prod.fst) :
    Xor' (∃ j info, (j, info) ∈ (match_titles_fuzzy pdfs excel th).matchesMap ∧
        info.filename = f)
      (f ∈ (match_titles_fuzzy pdfs excel th).unmatched_pdfs) := by
  have hiff : (∃ j info,
      (j, info) ∈ (match_titles_fuzzy pdfs excel th).matchesMap ∧ info.filename = f) ↔
      f ∈ (match_titles_fuzzy pdfs excel th).matchesMap.map (fun m => m.2.filename) := by
    rw [List.mem_map]
    constructor
    · rintro ⟨j, info, hm, he⟩
      exact ⟨(j, info), hm, he⟩
    · rintro ⟨⟨j, info⟩, hm, he⟩
      exact ⟨j, info, hm, he⟩
  have hun : f ∈ (match_titles_fuzzy pdfs excel th).unmatched_pdfs ↔
      (f ∈ pdfs.map Prod.fst ∧
        ¬ f ∈ (match_titles_fuzzy pdfs excel th).matchesMap.map (fun m => m.2.filename)) := by
    rw [mtf_unmatched_pdfs, List.mem_filter]
    constructor
    · rintro ⟨h1, h2⟩
      refine ⟨h1, fun hmem => ?_⟩
      rw [Bool.not_eq_true', ← Bool.not_eq_true] at h2
      exact h2 (List.elem_iff.mpr hmem)
    · rintro ⟨h1, h2⟩
      refine ⟨h1, ?_⟩
      rw [Bool.not_eq_true', ← Bool.not_eq_true]
      intro hc
      exact h2 (List.elem_iff.mp hc)
  by_cases hc : f ∈ (match_titles_fuzzy pdfs excel th).matchesMap.map (fun m => m.2.filename)
  · exact Or.inl ⟨hiff.mpr hc, fun hu => (hun.mp hu).2 hc⟩
  · exact Or.inr ⟨hun.mpr ⟨hf, hc⟩, fun hcl => hc (hiff.mp hcl)⟩

/-- C2 (amended): a catalog record with a present title lands in exactly one
of the matches mapping and the unmatched-records list; a record with a
missing (NaN) title is skipped outright and lands in neither, contrary to
the claim that it is counted as unmatched. -/
theorem C2_record_partition (pdfs : List (String × String))
    (excel : List (Option String)) (th : Nat) (idx : Nat) :
    (∀ q, excel.get? idx = some (some q) →
      Xor' (∃ info, (idx, info) ∈ (match_titles_fuzzy pdfs excel th).matchesMap)
        (∃ s, (idx, s) ∈ (match_titles_fuzzy pdfs excel th).unmatched_articles)) ∧
    (excel.get? idx = some none →
      (∀ info, (idx, info) ∉ (match_titles_fuzzy pdfs excel th).matchesMap) ∧
      (∀ s, (idx, s) ∉ (match_titles_fuzzy pdfs excel th).unmatched_articles)) := by
  constructor
  · intro q hq
    have hM : (∃ info, (idx, info) ∈ (match_titles_fuzzy pdfs excel th).matchesMap) ↔
        ∃ info, recordDecision (pdfs.map Prod.snd) (pdfs.map Prod.fst) th q = some info := by
      rw [mtf_matchesMap]
      constructor
      · rintro ⟨info, hm⟩
        obtain ⟨k, t, hk, hget, hrd⟩ := (matchLoop_mem_matches excel 0 idx info).mp hm
        have hkidx : k = idx := by omega
        subst hkidx
        rw [hq] at hget
        have : q = t := by simpa using Option.some.inj hget
        exact ⟨info, this ▸ hrd⟩
      · rintro ⟨info, hrd⟩
        exact ⟨info, (matchLoop_mem_matches excel 0 idx info).mpr
          ⟨idx, q, by omega, hq, hrd⟩⟩
    have hU : (∃ s, (idx, s) ∈ (match_titles_fuzzy pdfs excel th).unmatched_articles) ↔
        recordDecision (pdfs.map Prod.snd) (pdfs.map Prod.fst) th q = none := by
      rw [mtf_unmatched_articles]
      constructor
      · rintro ⟨s, hm⟩
        obtain ⟨k, hk, hget, hrd⟩ := (matchLoop_mem_unmatched excel 0 idx s).mp hm
        have hkidx : k = idx := by omega
        subst hkidx
        rw [hq] at hget
        have : q = s := by simpa using Option.some.inj hget
        exact this ▸ hrd
      · intro hrd
        exact ⟨q, (matchLoop_mem_unmatched excel 0 idx q).mpr ⟨idx, by omega, hq, hrd⟩⟩
    cases hrd : recordDecision (pdfs.map Prod.snd) (pdfs.map Prod.fst) th q with
    | some info =>
      exact Or.inl ⟨hM.mpr ⟨info, hrd⟩, fun hu => by
        rw [hU.mp hu] at hrd; cases hrd⟩
    | none =>
      exact Or.inr ⟨hU.mpr hrd, fun hm => by
        obtain ⟨info, hrd'⟩ := hM.mp hm
        rw [hrd] at hrd'
        cases hrd'⟩
  · intro hq
    constructor
    · intro info hm
      rw [mtf_matchesMap] at hm
      obtain ⟨k, t, hk, hget, _⟩ := (matchLoop_mem_matches excel 0 idx info).mp hm
      have hkidx : k = idx := by omega
      subst hkidx
      rw [hq] at hget
      simpa using Option.some.inj hget
    · intro s hm
      rw [mtf_unmatched_articles] at hm
      obtain ⟨k, hk, hget, _⟩ := (matchLoop_mem_unmatched excel 0 idx s).mp hm
      have hkidx : k = idx := by omega
      subst hkidx
      rw [hq] at hget
      simpa using Option.some.inj hget

/-- C8 (amended): raising the threshold from `t1` to `t2 ≥ t1` keeps exactly
the matches of confidence at least `t2`, each with its binding and
confidence unchanged, and every record matched at `t1` with confidence
below `t2` (in particular a record whose best achievable score is below
`t2`) moves to the unmatched-records list; records whose confidence is in
`[t1, t2)` also move, so other records' assignments are not all preserved. -/
theorem C8_threshold_monotone (pdfs : List (String × String))
    (excel : List (Option String)) (t1 t2 : Nat) (h12 : t1 ≤ t2) :
    ((match_titles_fuzzy pdfs excel t2).matchesMap =
      (match_titles_fuzzy pdfs excel t1).matchesMap.filter
        (fun m => decide (t2 ≤ m.2.confidence))) ∧
    (∀ j info, (j, info) ∈ (match_titles_fuzzy pdfs excel t1).matchesMap →
      info.confidence < t2 →
      ∃ s, (j, s) ∈ (match_titles_fuzzy pdfs excel t2).unmatched_articles ∧
        excel.get? j = some (some s)) := by
  constructor
  · rw [mtf_matchesMap, mtf_matchesMap]
    exact matchLoop_filter h12 excel 0
  · intro j info hm hconf
    rw [mtf_matchesMap] at hm
    obtain ⟨k, t, hk, hget, hrd⟩ := (matchLoop_mem_matches excel 0 j info).mp hm
    obtain ⟨me, ma, c, hp, hth1, hinfo⟩ := recordDecision_some_inv hrd
    have hc : info.confidence = c := by rw [hinfo]
    have hrd2 : recordDecision (pdfs.map Prod.snd) (pdfs.map Prod.fst) t2 t = none :=
      recordDecision_eq_none_low (pdfs.map Prod.fst) t2 hp (by omega)
    have hkj : k = j := by omega
    subst hkj
    refine ⟨t, ?_, hget⟩
    rw [mtf_unmatched_articles]
    exact (matchLoop_mem_unmatched excel 0 k t).mpr ⟨k, by omega, hget, hrd2⟩

/-- C10: when two documents of the index carry byte-identical extracted
titles, any match whose matched title resolves through `list.index` binds
the earlier document, so the later duplicate's identifier is never claimed
and always lies in the unmatched-documents list. -/
theorem C10_duplicate_titles (pdfs : List (String × String))
    (excel : List (Option String)) (th : Nat)
    (hnd : (pdfs.map Prod.fst).Nodup) (p q : Nat)
    (hp : p < pdfs.length) (hq : q < pdfs.length) (hpq : p < q)
    (heq : (pdfs.get ⟨p, hp⟩).2 = (pdfs.get ⟨q, hq⟩).2) :
    (∀ j info, (j, info) ∈ (match_titles_fuzzy pdfs excel th).matchesMap →
      info.filename ≠ (pdfs.get ⟨q, hq⟩).1) ∧
    (pdfs.get ⟨q, hq⟩).1 ∈ (match_titles_fuzzy pdfs excel th).unmatched_pdfs := by
  have hlenf : (pdfs.map Prod.fst).length = pdfs.length := List.length_map _ _
  have hlent : (pdfs.map Prod.snd).length = pdfs.length := List.length_map _ _
  have hclaim : ∀ j info, (j, info) ∈ (match_titles_fuzzy pdfs excel th).matchesMap →
      info.filename ≠ (pdfs.get ⟨q, hq⟩).1 := by
    intro j info hm hcontra
    rw [mtf_matchesMap] at hm
    obtain ⟨k, t, hk, hget, hrd⟩ := (matchLoop_mem_matches excel 0 j info).mp hm
    obtain ⟨me, ma, c, hpr, hth, hinfo⟩ := recordDecision_some_inv hrd
    have hma : ma ∈ pdfs.map Prod.snd := (processRecord_some_spec hpr).1
    have hix : (pdfs.map Prod.snd).indexOf ma < (pdfs.map Prod.snd).length :=
      List.indexOf_lt_length.mpr hma
    have hfile : info.filename =
        (pdfs.map Prod.fst).get ⟨(pdfs.map Prod.snd).indexOf ma, by omega⟩ := by
      rw [hinfo]
      exact List.getD_eq_get _ _ (by omega)
    have hqget : (pdfs.get ⟨q, hq⟩).1 = (pdfs.map Prod.fst).get ⟨q, by omega⟩ := by
      rw [List.get_eq_getElem, List.get_eq_getElem, List.getElem_map]
    rw [hfile, hqget] at hcontra
    have hixq : (pdfs.map Prod.snd).indexOf ma = q := by
      have := (List.Nodup.get_inj_iff hnd).mp hcontra
      exact congrArg Fin.val this
    have hmaq : ma = (pdfs.get ⟨q, hq⟩).2 := by
      have hg := List.indexOf_get (l := pdfs.map Prod.snd) (a := ma) (by omega)
      rw [← hg]
      have : (pdfs.map Prod.snd).get ⟨(pdfs.map Prod.snd).indexOf ma, by omega⟩ =
          (pdfs.map Prod.snd).get ⟨q, by omega⟩ := by
        congr 1
        exact Fin.ext hixq
      rw [this, List.get_eq_getElem, List.getElem_map, List.get_eq_getElem]
    have hmap : (pdfs.map Prod.snd).get ⟨p, by omega⟩ = ma := by
      rw [List.get_eq_getElem, List.getElem_map, hmaq, ← heq, List.get_eq_getElem]
    have hle : (pdfs.map Prod.snd).indexOf ma ≤ p :=
      indexOf_le_of_get (by omega) hmap
    omega
  refine ⟨hclaim, ?_⟩
  rw [mtf_unmatched_pdfs, List.mem_filter]
  constructor
  · have : (pdfs.get ⟨q, hq⟩).1 = (pdfs.map Prod.fst).get ⟨q, by omega⟩ := by
      rw [List.get_eq_getElem, List.get_eq_getElem, List.getElem_map]
    rw [this]
    exact List.get_mem _ _ _
  · rw [Bool.not_eq_true', ← Bool.not_eq_true]
    intro hc
    rcases List.mem_map.mp (List.elem_iff.mp hc) with ⟨⟨j, info⟩, hm, he⟩
    exact hclaim j info hm he

/-- C9: the augmented catalog keeps every row in place (same count, same
order, original contents untouched) and appends exactly the matched
filename and the percent-formatted confidence, both empty for unmatched
rows; confidences of real matches lie in 0–100. -/
theorem C9_augmented_catalog {α : Type} (rows : List α)
    (pdfs : List (String × String)) (excel : List (Option String)) (th : Nat) :
    ((update_excel_file rows (match_titles_fuzzy pdfs excel th).matchesMap).map
        Prod.fst = rows) ∧
    ((update_excel_file rows (match_titles_fuzzy pdfs excel th).matchesMap).length
        = rows.length) ∧
    (∀ i r, rows.get? i = some r →
      (∃ info, (match_titles_fuzzy pdfs excel th).matchesMap.lookup i = some info ∧
        (update_excel_file rows (match_titles_fuzzy pdfs excel th).matchesMap).get? i
          = some (r, info.filename, toString info.confidence ++ "%") ∧
        info.confidence ≤ 100) ∨
      ((match_titles_fuzzy pdfs excel th).matchesMap.lookup i = none ∧
        (update_excel_file rows (match_titles_fuzzy pdfs excel th).matchesMap).get? i
          = some (r, "", ""))) := by
  set ms := (match_titles_fuzzy pdfs excel th).matchesMap with hms
  clear_value ms
  have hfst : (update_excel_file rows ms).map Prod.fst = rows := by
    rw [update_excel_file, List.map_map]
    have : (Prod.fst ∘ fun p : Nat × α =>
        match ms.lookup p.1 with
        | some info => (p.2, info.filename, toString info.confidence ++ "%")
        | none => (p.2, "", "")) = Prod.snd := by
      funext p
      simp only [Function.comp_apply]
      cases h : ms.lookup p.1 <;> rfl
    rw [this]
    exact List.enumFrom_map_snd 0 rows
  refine ⟨hfst, ?_, ?_⟩
  · have := congrArg List.length hfst
    rw [List.length_map] at this
    exact this
  · intro i r hr
    have hget : (update_excel_file rows ms).get? i =
        some (match ms.lookup i with
          | some info => (r, info.filename, toString info.confidence ++ "%")
          | none => (r, "", "")) := by
      rw [update_excel_file, List.get?_map, List.get?_eq_getElem?,
        List.getElem?_enumFrom, ← List.get?_eq_getElem?, hr]
      simp only [Option.map_some', Nat.zero_add]
    cases hl : ms.lookup i with
    | some info =>
      left
      refine ⟨info, rfl, ?_, ?_⟩
      · rw [hget, hl]
      · exact matchesMap_conf_le (lookup_mem (hms ▸ hl))
    | none =>
      right
      refine ⟨rfl, ?_⟩
      rw [hget, hl]

/-- C3 (amended): for a record whose title coincides byte-for-byte with a
document title and whose full-processed form is nonempty, each of the three
per-strategy bests is 100 and the record is matched with confidence 100
(when the threshold admits it).  Without the nonemptiness proviso the
token-set strategy can return 0 (see the counterexample). -/
theorem C3_identical_title_scores (pdfs : List (String × String))
    (excel : List (Option String)) (th idx : Nat) (q : String)
    (hq : excel.get? idx = some (some q))
    (hmem : q ∈ pdfs.map Prod.snd)
    (hne : full_process q ≠ "") (hth : th ≤ 100) :
    (∃ c, extractOne token_sort_ratio false q (pdfs.map Prod.snd) = some (c, 100)) ∧
    (∃ c, extractOne partial_ratio true q (pdfs.map Prod.snd) = some (c, 100)) ∧
    (∃ c, extractOne token_set_ratio false q (pdfs.map Prod.snd) = some (c, 100)) ∧
    (∃ info, (idx, info) ∈ (match_titles_fuzzy pdfs excel th).matchesMap ∧
      info.confidence = 100) := by
  obtain ⟨c1, _, h1⟩ := extractOne_best_100 hmem
    (fun c _ => by rw [choiceScore]; exact token_sort_ratio_le _ _)
    (by rw [choiceScore_false]; exact token_sort_ratio_fp_self q)
  obtain ⟨c2, _, h2⟩ := extractOne_best_100 hmem
    (fun c _ => by rw [choiceScore]; exact partial_ratio_le _ _)
    (by rw [choiceScore_true]; exact partial_ratio_self _)
  obtain ⟨c3, _, h3⟩ := extractOne_best_100 hmem
    (fun c _ => by rw [choiceScore]; exact token_set_ratio_le _ _)
    (by rw [choiceScore_false]; exact token_set_ratio_fp_self q hne)
  refine ⟨⟨c1, h1⟩, ⟨c2, h2⟩, ⟨c3, h3⟩, ?_⟩
  obtain ⟨r, hpr, hr100⟩ := processRecord_conf_100 hmem hne
  obtain ⟨me, ma, c⟩ := r
  have hc100 : c = 100 := hr100
  subst hc100
  have hrd := recordDecision_eq_some (pdfs.map Prod.fst) th hpr hth
  refine ⟨⟨(pdfs.map Prod.fst).getD ((pdfs.map Prod.snd).indexOf ma) "", ma, 100, me⟩,
    ?_, rfl⟩
  rw [mtf_matchesMap]
  exact (matchLoop_mem_matches excel 0 idx _).mpr ⟨idx, q, by omega, hq, hrd⟩

/-! ## Length bounds and collection facts for the title extractor -/

theorem dropWhile_length_le (p : Char → Bool) (l : List Char) :
    (List.dropWhile p l).length ≤ l.length :=
  (List.dropWhile_sublist p).length_le

theorem collapseWsGo_length_le : ∀ (b : Bool) (l : List Char),
    (collapseWsGo b l).length ≤ l.length
  | _, [] => le_refl _
  | b, c :: rest => by
    rw [collapseWsGo]
    split
    · split
      · have := collapseWsGo_length_le true rest
        simp only [List.length_cons]
        omega
      · have := collapseWsGo_length_le true rest
        simp only [List.length_cons]
        omega
    · have := collapseWsGo_length_le false rest
      simp only [List.length_cons]
      omega

theorem pyStripChars_length_le (l : List Char) :
    (pyStripChars l).length ≤ l.length := by
  rw [pyStripChars, List.length_reverse]
  refine le_trans (dropWhile_length_le _ _) ?_
  rw [List.length_reverse]
  exact dropWhile_length_le _ _

theorem dropLeadingNum_length_le (l : List Char) :
    (dropLeadingNum l).length ≤ l.length := by
  rw [dropLeadingNum.eq_def]
  split
  · split
    · refine le_trans (dropWhile_length_le _ _) ?_
      exact dropWhile_length_le _ _
    · exact le_refl _
  · exact le_refl _

theorem dropTrailingNum_length_le (l : List Char) :
    (dropTrailingNum l).length ≤ l.length := by
  rw [dropTrailingNum]
  split
  · split
    · rw [List.length_reverse]
      refine le_trans (dropWhile_length_le _ _) ?_
      refine le_trans (dropWhile_length_le _ _) ?_
      rw [List.length_reverse]
    · exact le_refl _
  · exact le_refl _

theorem clean_title_line_length_le (s : String) :
    (clean_title_line s).length ≤ s.length := by
  rw [clean_title_line]
  split
  · exact Nat.zero_le _
  · dsimp only
    split
    · exact Nat.zero_le _
    · show (pyStripChars (collapseWs (dropTrailingNum (dropLeadingNum s.data)))).length
        ≤ s.data.length
      refine le_trans (pyStripChars_length_le _) ?_
      refine le_trans (collapseWsGo_length_le _ _) ?_
      refine le_trans (dropTrailingNum_length_le _) ?_
      exact dropLeadingNum_length_le _

theorem stripArticleOne_length_le :
    ∀ (art l r : List Char), stripArticleOne art l = some r → r.length ≤ l.length
  | [], c :: rest, r => by
    rw [stripArticleOne]
    split
    · intro h
      rw [← Option.some.inj h]
      exact dropWhile_length_le _ _
    · intro h; cases h
  | [], [], r => by intro h; cases h
  | _ :: _, [], r => by intro h; cases h
  | a :: as, c :: cs, r => by
    rw [stripArticleOne]
    split
    · intro h
      have := stripArticleOne_length_le as cs r h
      simp only [List.length_cons]
      omega
    · intro h; cases h

theorem stripLeadingArticle_length_le (l : List Char) :
    (stripLeadingArticle l).length ≤ l.length := by
  rw [stripLeadingArticle]
  cases h1 : stripArticleOne "the".data l with
  | some r => exact stripArticleOne_length_le _ _ _ h1
  | none =>
    cases h2 : stripArticleOne "an".data l with
    | some r => exact stripArticleOne_length_le _ _ _ h2
    | none =>
      cases h3 : stripArticleOne "a".data l with
      | some r => exact stripArticleOne_length_le _ _ _ h3
      | none => exact le_refl _

theorem dropTrailingPunctComma_length_le (l : List Char) :
    (dropTrailingPunctComma l).length ≤ l.length := by
  rw [dropTrailingPunctComma]
  split
  · rename_i c rest heq
    split
    · rw [List.length_reverse]
      have h1 : rest.length + 1 = (l.reverse.dropWhile isPyWS).length := by
        rw [heq]; rfl
      have h2 : (l.reverse.dropWhile isPyWS).length ≤ l.length := by
        refine le_trans (dropWhile_length_le _ _) ?_
        rw [List.length_reverse]
      have := dropWhile_length_le isPyWS rest
      omega
    · exact le_refl _
  · exact le_refl _

theorem clean_full_title_length_le (s : String) :
    (clean_full_title s).length ≤ s.length := by
  rw [clean_full_title]
  split
  · exact Nat.zero_le _
  · show (pyStripChars (dropTrailingPunctComma (stripLeadingArticle
      (pyStripChars (collapseWs s.data))))).length ≤ s.data.length
    refine le_trans (pyStripChars_length_le _) ?_
    refine le_trans (dropTrailingPunctComma_length_le _) ?_
    refine le_trans (stripLeadingArticle_length_le _) ?_
    refine le_trans (pyStripChars_length_le _) ?_
    exact collapseWsGo_length_le _ _

theorem collectGo_mem : ∀ (ls : List String) (s : String),
    s ∈ collectGo ls → ∃ l ∈ ls, s = clean_title_line l := by
  intro ls
  induction ls with
  | nil => intro s hs; simp [collectGo] at hs
  | cons l rest ih =>
    intro s hs
    rw [collectGo] at hs
    split at hs
    · obtain ⟨l', hl', he⟩ := ih s hs
      exact ⟨l', List.mem_cons_of_mem _ hl', he⟩
    · split at hs
      · cases hs
      · split at hs
        · cases hs
        · split at hs
          · have : s = clean_title_line l := by simpa using hs
            exact ⟨l, List.mem_cons_self _ _, this⟩
          · rcases List.mem_cons.mp hs with he | he
            · exact ⟨l, List.mem_cons_self _ _, he⟩
            · obtain ⟨l', hl', he'⟩ := ih s he
              exact ⟨l', List.mem_cons_of_mem _ hl', he'⟩

theorem collectGo_length_le : ∀ (ls : List String),
    (collectGo ls).length ≤ ls.length := by
  intro ls
  induction ls with
  | nil => simp [collectGo]
  | cons l rest ih =>
    rw [collectGo]
    split
    · simp only [List.length_cons]; omega
    · split
      · simp
      · split
        · simp
        · split
          · simp
          · simp only [List.length_cons]; omega

theorem joinWordsChars_length_le : ∀ (ws : List (List Char)) (n : Nat),
    (∀ w ∈ ws, w.length ≤ n) →
    (joinWordsChars ws).length ≤ n * ws.length + ws.length := by
  intro ws
  induction ws with
  | nil => intro n _; simp [joinWordsChars]
  | cons w ws ih =>
    intro n h
    cases ws with
    | nil =>
      have := h w (List.mem_cons_self _ _)
      simp only [joinWordsChars, List.length_cons, List.length_nil]
      omega
    | cons w2 ws2 =>
      rw [joinWordsChars]
      have h1 := h w (List.mem_cons_self _ _)
      have h2 := ih n (fun x hx => h x (List.mem_cons_of_mem _ hx))
      simp only [List.length_append, List.length_cons]
      simp only [List.length_cons] at h2 ⊢
      have h3 : (w ++ ' ' :: joinWordsChars (w2 :: ws2)).length =
          w.length + 1 + (joinWordsChars (w2 :: ws2)).length := by
        simp [List.length_append]
        omega
      have hm : n * (ws2.length + 1 + 1) = n * (ws2.length + 1) + n := by ring
      omega
      simp

theorem joinWords_length_le (ts : List String) (n : Nat)
    (h : ∀ t ∈ ts, t.length ≤ n) :
    (joinWords ts).length ≤ n * ts.length + ts.length := by
  show (joinWordsChars (ts.map String.data)).length ≤ n * ts.length + ts.length
  have := joinWordsChars_length_le (ts.map String.data) n (by
    intro w hw
    rcases List.mem_map.mp hw with ⟨t, ht, he⟩
    rw [← he]
    exact h t ht)
  rw [List.length_map] at this
  exact this

theorem enumFrom_mem_snd {α : Type _} :
    ∀ (n : Nat) (l : List α) (p : Nat × α), p ∈ List.enumFrom n l → p.2 ∈ l := by
  intro n l
  induction l generalizing n with
  | nil => intro p hp; simp [List.enumFrom] at hp
  | cons x xs ih =>
    intro p hp
    rw [List.enumFrom] at hp
    rcases List.mem_cons.mp hp with he | he
    · rw [he]; exact List.mem_cons_self _ _
    · exact List.mem_cons_of_mem _ (ih (n + 1) p he)

theorem findStartGo_zero :
    ∀ (el : List (Nat × String)),
      (∀ pr ∈ el, isSectionLabel pr.2 = false ∧ pr.2.length ≤ 20) →
      findStartGo el = 0 := by
  intro el
  induction el with
  | nil => intro _; rfl
  | cons pr rest ih =>
    intro h
    obtain ⟨p1, p2⟩ := pr
    obtain ⟨hsec, hlen⟩ := h (p1, p2) (List.mem_cons_self _ _)
    rw [findStartGo]
    split
    · exact ih (fun x hx => h x (List.mem_cons_of_mem _ hx))
    · split
      · rename_i _ hl
        rw [hsec] at hl
        cases hl
      · split
        · rename_i _ _ hl
          rw [Bool.and_eq_true, decide_eq_true_eq, decide_eq_true_eq] at hl
          dsimp only at hlen
          omega
        · exact ih (fun x hx => h x (List.mem_cons_of_mem _ hx))

/-- C5 (amended): when a cleaned candidate line is short and author-like
(all-uppercase, holds `@`, or holds `university`), fragment collection
stops, but the triggering line is excluded: it never appears among the
collected fragments, contrary to the claim that it becomes the last one. -/
theorem C5_author_line_stop :
    (∀ (ls : List String) (s : String), s ∈ collectGo ls → isAuthorish s = false) ∧
    (∀ (l : String) (rest : List String), clean_title_line l ≠ "" →
      containsAnyTok (lowerStr (clean_title_line l)) titleEndTokens = false →
      isAuthorish (clean_title_line l) = true →
      collectGo (l :: rest) = []) := by
  constructor
  · intro ls
    induction ls with
    | nil => intro s hs; simp [collectGo] at hs
    | cons l rest ih =>
      intro s hs
      rw [collectGo] at hs
      split at hs
      · exact ih s hs
      · split at hs
        · cases hs
        · split at hs
          · cases hs
          · rename_i hna
            split at hs
            · have he : s = clean_title_line l := by simpa using hs
              rw [he]
              exact Bool.not_eq_true _ ▸ hna
            · rcases List.mem_cons.mp hs with he | he
              · rw [he]
                exact Bool.not_eq_true _ ▸ hna
              · exact ih s he
  · intro l rest hne hend hauth
    rw [collectGo]
    rw [if_neg hne, if_neg (by rw [hend]; exact Bool.false_ne_true), if_pos hauth]

/-- C6 (amended): on text whose lines are all at most 15 characters with no
section label, the longest-line fallback indeed never yields a title, but
the main collection path still can; the extractor returns none exactly when
the cleaned joined fragments have length at most 10. -/
theorem C6_short_lines (text : String)
    (hlen : ∀ l ∈ pyLines text, l.length ≤ 15)
    (hsec : ∀ l ∈ pyLines text, isSectionLabel l = false) :
    (extract_title_from_text text = none ↔
      (clean_full_title (joinWords (collectGo ((pyLines text).take 5)))).length ≤ 10) := by
  by_cases hnil : pyLines text = []
  · constructor
    · intro _
      rw [hnil]
      decide
    · intro _
      rw [extract_title_from_text]
      dsimp only
      rw [if_pos hnil]
  · have hstart : findStartGo (List.enumFrom 0 ((pyLines text).take 15)) = 0 := by
      refine findStartGo_zero _ ?_
      intro pr hpr
      have h2 := enumFrom_mem_snd _ _ _ hpr
      have h3 := List.mem_of_mem_take h2
      exact ⟨hsec _ h3, le_trans (hlen _ h3) (by omega)⟩
    have hlt : 0 < (pyLines text).length := List.length_pos.mpr hnil
    have hfb : ((pyLines text).take 20).filterMap (fun l =>
        let c := clean_title_line l
        if 15 < c.length ∧ c.length < 200 then some c else none) = [] := by
      rw [List.filterMap_eq_nil_iff]
      intro a ha
      have h15 := hlen a (List.mem_of_mem_take ha)
      have hc := clean_title_line_length_le a
      dsimp only
      rw [if_neg]
      rintro ⟨hgt, _⟩
      omega
    have h300 : (clean_full_title (joinWords (collectGo ((pyLines text).take 5)))).length
        < 300 := by
      have hcount : (collectGo ((pyLines text).take 5)).length ≤ 5 :=
        le_trans (collectGo_length_le _) (List.length_take_le _ _)
      have helem : ∀ t ∈ collectGo ((pyLines text).take 5), t.length ≤ 15 := by
        intro t ht
        obtain ⟨l, hl, he⟩ := collectGo_mem _ _ ht
        rw [he]
        exact le_trans (clean_title_line_length_le _) (hlen l (List.mem_of_mem_take hl))
      have hj := joinWords_length_le (collectGo ((pyLines text).take 5)) 15 helem
      have hcf := clean_full_title_length_le (joinWords (collectGo ((pyLines text).take 5)))
      have hmul : 15 * (collectGo ((pyLines text).take 5)).length ≤ 75 := by omega
      omega
    rw [extract_title_from_text]
    dsimp only
    rw [if_neg hnil, hstart, if_pos hlt, List.drop_zero]
    by_cases htnil : collectGo ((pyLines text).take 5) = []
    · rw [if_pos htnil, hfb]
      dsimp only
      rw [htnil]
      constructor
      · intro _
        decide
      · intro _
        rfl
    · rw [if_neg htnil]
      by_cases h10 : 10 < (clean_full_title (joinWords (collectGo
          ((pyLines text).take 5)))).length
      · rw [if_pos ⟨h10, h300⟩]
        dsimp only
        constructor
        · intro h
          cases h
        · intro hle
          omega
      · rw [if_neg (fun hand => h10 hand.1), hfb]
        dsimp only
        constructor
        · intro _
          omega
        · intro _
          rfl

/-! ## Concrete counterexamples and witnesses -/

/-- C1 counterexample: two records with the same title are both bound to the
single document `a.pdf`, so a document identifier appears in two
MatchResults and no greedy claiming takes place. -/
theorem C1_counterexample :
    ((match_titles_fuzzy [("a.pdf", "distributed robot control")]
        [some "distributed robot control", some "distributed robot control"]
        60).matchesMap.map (fun m => (m.1, m.2.filename))
      = [(0, "a.pdf"), (1, "a.pdf")]) ∧
    ¬ (∀ m1 ∈ (match_titles_fuzzy [("a.pdf", "distributed robot control")]
        [some "distributed robot control", some "distributed robot control"]
        60).matchesMap,
       ∀ m2 ∈ (match_titles_fuzzy [("a.pdf", "distributed robot control")]
        [some "distributed robot control", some "distributed robot control"]
        60).matchesMap,
       m1.2.filename = m2.2.filename → m1.1 = m2.1) := by decide

theorem C1_witness :
    Xor' (∃ j info,
        (j, info) ∈ (match_titles_fuzzy [("a.pdf", "xyz")] [] 60).matchesMap ∧
        info.filename = "a.pdf")
      ("a.pdf" ∈ (match_titles_fuzzy [("a.pdf", "xyz")] [] 60).unmatched_pdfs) :=
  C1_document_partition [("a.pdf", "xyz")] [] 60 "a.pdf" (by decide)

/-- C2 counterexample: a catalog of one NaN-titled record yields an empty
matches mapping and an empty unmatched-records list, so record 0 appears in
neither, not in exactly one. -/
theorem C2_counterexample :
    (match_titles_fuzzy [("a.pdf", "xyz")] [none] 60).matchesMap = [] ∧
    (match_titles_fuzzy [("a.pdf", "xyz")] [none] 60).unmatched_articles = [] ∧
    ¬ Xor' (∃ info, ((0 : Nat), info) ∈
        (match_titles_fuzzy [("a.pdf", "xyz")] [none] 60).matchesMap)
      (∃ s, ((0 : Nat), s) ∈
        (match_titles_fuzzy [("a.pdf", "xyz")] [none] 60).unmatched_articles) := by
  have hM : (match_titles_fuzzy [("a.pdf", "xyz")] [none] 60).matchesMap = [] := by decide
  have hU : (match_titles_fuzzy [("a.pdf", "xyz")] [none] 60).unmatched_articles = [] := by
    decide
  refine ⟨hM, hU, ?_⟩
  rintro (⟨⟨info, hm⟩, -⟩ | ⟨⟨s, hm⟩, -⟩)
  · rw [hM] at hm
    cases hm
  · rw [hU] at hm
    cases hm

/-- C3 counterexample: for the byte-identical pair of titles `"??"`, whose
full-processed form is empty, the token-set strategy's best score in the
run is 0, not 100. -/
theorem C3_counterexample :
    extractOne token_set_ratio false "??" ["??"] = some ("??", 0) ∧
    token_set_ratio (full_process "??") "??" = 0 := by decide

theorem C3_witness :
    (∃ c, extractOne token_sort_ratio false "robot control systems"
      ([("a.pdf", "robot control systems")].map Prod.snd) = some (c, 100)) ∧
    (∃ c, extractOne partial_ratio true "robot control systems"
      ([("a.pdf", "robot control systems")].map Prod.snd) = some (c, 100)) ∧
    (∃ c, extractOne token_set_ratio false "robot control systems"
      ([("a.pdf", "robot control systems")].map Prod.snd) = some (c, 100)) ∧
    (∃ info, (0, info) ∈ (match_titles_fuzzy [("a.pdf", "robot control systems")]
        [some "robot control systems"] 60).matchesMap ∧ info.confidence = 100) :=
  C3_identical_title_scores [("a.pdf", "robot control systems")]
    [some "robot control systems"] 60 0 "robot control systems"
    (by decide) (by decide) (by decide) (by decide)

/-- C4 counterexample: on the spec's example text the extractor does not
return the claimed string: the author line "John Smith, MIT" is not
all-uppercase and holds neither `@` nor "university", so it is collected
into the title. -/
theorem C4_counterexample :
    extract_title_from_text "Vol. 3, No. 2\nOriginal Article\nA Study of Fuzzy Reconciliation Systems\nJohn Smith, MIT\nAbstract: ..."
      ≠ some "Study of Fuzzy Reconciliation Systems" := by decide

/-- C4 (amended): the extractor keeps the author line, returning the title
with "John Smith, MIT" appended (leading article still stripped, the
abstract line still excluded). -/
theorem C4_extractor_example :
    extract_title_from_text "Vol. 3, No. 2\nOriginal Article\nA Study of Fuzzy Reconciliation Systems\nJohn Smith, MIT\nAbstract: ..."
      = some "Study of Fuzzy Reconciliation Systems John Smith, MIT" := by decide

/-- C5 counterexample: the all-uppercase line "UNIVERSITY LAB" stops the
collection but is not kept as the last fragment. -/
theorem C5_counterexample :
    collectGo ((pyLines
      "This is a reasonably long title line\nUNIVERSITY LAB\nmore text here ok").take 5)
      = ["This is a reasonably long title line"] ∧
    isAuthorish "UNIVERSITY LAB" = true ∧
    "UNIVERSITY LAB" ∉ collectGo ((pyLines
      "This is a reasonably long title line\nUNIVERSITY LAB\nmore text here ok").take 5) ∧
    extract_title_from_text
      "This is a reasonably long title line\nUNIVERSITY LAB\nmore text here ok"
      = some "This is a reasonably long title line" := by decide

theorem C5_witness :
    isAuthorish "This is a reasonably long title line" = false ∧
    collectGo ["UNIVERSITY LAB"] = [] := by
  constructor
  · exact C5_author_line_stop.1 ["This is a reasonably long title line"]
      "This is a reasonably long title line" (by decide)
  · exact C5_author_line_stop.2 "UNIVERSITY LAB" [] (by decide) (by decide) (by decide)

/-- C6 counterexample: every line is at most 15 characters and none is a
section label, yet the extractor returns a title assembled by the main
collection path. -/
theorem C6_counterexample :
    (∀ l ∈ pyLines "abcde fghij\nklmno pqrst", l.length ≤ 15) ∧
    (∀ l ∈ pyLines "abcde fghij\nklmno pqrst", isSectionLabel l = false) ∧
    extract_title_from_text "abcde fghij\nklmno pqrst"
      = some "abcde fghij klmno pqrst" := by decide

theorem C6_witness : extract_title_from_text "tiny\nabc" = none :=
  (C6_short_lines "tiny\nabc" (by decide) (by decide)).mpr (by decide)

theorem C7_witness :
    processRecord ["robot control systems"] "robot control systems" =
      some ("token_sort", "robot control systems", 100) := by
  have h1 : extractOne token_sort_ratio false "robot control systems"
      ["robot control systems"] = some ("robot control systems", 100) := by decide
  have h2 : extractOne partial_ratio true "robot control systems"
      ["robot control systems"] = some ("robot control systems", 100) := by decide
  have h3 : extractOne token_set_ratio false "robot control systems"
      ["robot control systems"] = some ("robot control systems", 100) := by decide
  simpa using C7_best_strategy_selection h1 h2 h3

/-- C8 counterexample: with two identical records over one document, both
match with confidence 100 at threshold 60; raising the threshold to 150
(above record 0's best achievable score) also empties record 1's
assignment, so another record's assignment does change. -/
theorem C8_counterexample :
    ((match_titles_fuzzy [("a.pdf", "distributed robot control")]
        [some "distributed robot control", some "distributed robot control"]
        60).matchesMap.map (fun m => (m.1, m.2.confidence)) = [(0, 100), (1, 100)]) ∧
    (match_titles_fuzzy [("a.pdf", "distributed robot control")]
        [some "distributed robot control", some "distributed robot control"]
        150).matchesMap = [] ∧
    ((0 : Nat), "distributed robot control") ∈ (match_titles_fuzzy
        [("a.pdf", "distributed robot control")]
        [some "distributed robot control", some "distributed robot control"]
        150).unmatched_articles ∧
    ((1 : Nat), "distributed robot control") ∈ (match_titles_fuzzy
        [("a.pdf", "distributed robot control")]
        [some "distributed robot control", some "distributed robot control"]
        150).unmatched_articles := by decide

theorem C8_witness :
    ((match_titles_fuzzy [("a.pdf", "xyz")] [some "xyz"] 80).matchesMap =
      (match_titles_fuzzy [("a.pdf", "xyz")] [some "xyz"] 60).matchesMap.filter
        (fun m => decide (80 ≤ m.2.confidence))) ∧
    (∀ j info, (j, info) ∈ (match_titles_fuzzy [("a.pdf", "xyz")] [some "xyz"]
        60).matchesMap →
      info.confidence < 80 →
      ∃ s, (j, s) ∈ (match_titles_fuzzy [("a.pdf", "xyz")] [some "xyz"]
          80).unmatched_articles ∧
        ([some "xyz"] : List (Option String)).get? j = some (some s)) :=
  C8_threshold_monotone [("a.pdf", "xyz")] [some "xyz"] 60 80 (by decide)

theorem C10_witness :
    (∀ j info, (j, info) ∈ (match_titles_fuzzy
        [("a.pdf", "robot control systems"), ("b.pdf", "robot control systems")]
        [some "robot control systems"] 60).matchesMap →
      info.filename ≠ "b.pdf") ∧
    "b.pdf" ∈ (match_titles_fuzzy
        [("a.pdf", "robot control systems"), ("b.pdf", "robot control systems")]
        [some "robot control systems"] 60).unmatched_pdfs :=
  C10_duplicate_titles
    [("a.pdf", "robot control systems"), ("b.pdf", "robot control systems")]
    [some "robot control systems"] 60 (by decide) 0 1
    (by decide) (by decide) (by decide) (by decide)
